import Mathlib

/-!
Verification development for the ASUS Ascent GX10 Talos overlay installer.

The repository ships three variants of the overlay installer:

* `CmdInstaller` — the command-dispatch CLI (`installer.go`, package `main`):
  the `install` sub-command decodes YAML `InstallOptions` from stdin, derives
  the overlay root from the executable's location, and runs three stages
  (kernel modules, firmware, config files), each resolving its source under
  `artifacts/...` first and the legacy flat path second.
* `PosInstaller` — the positional-argument CLI (package `main`): overlay root
  and rootfs root come from `os.Args`; its stages resolve only the legacy
  flat paths.
* `PluginInstaller` — the programmatic plugin (package `installer`): its
  `Install` method sequences four stages, but every copy body is an
  unimplemented TODO stub; the kernel-modules and firmware stages return an
  error when their source directory is absent, and no stage writes anything.

The filesystem is modelled as an association list from paths (lists of
components) to nodes (regular files with mode and content, or directories
with mode).  `os.Stat` is `FS.find`, `os.MkdirAll` is `mkdirAll` (creating
every missing ancestor with the given mode, failing on a non-directory),
and `copyFile` mirrors `os.Open` + `os.OpenFile(O_CREATE|O_WRONLY|O_TRUNC,
mode)` + `io.Copy`: an existing destination file keeps its mode and has its
content replaced; a fresh destination file is created with the given mode.
`filepath.Walk` is modelled by `FS.walkList`: the sequence of (absolute
path, node-at-walk-time) pairs the walk delivers to the walk function, in
sorted-name order (`readDirNames` sorts); `copyDirectory` folds the
translated walk function body (`walkStep`) over that sequence, stopping at
the first error and returning the filesystem state reached so far (the walk
is fail-fast and performs no rollback).
-/

/-- A filesystem path, as a list of components (the result of splitting the
Go path string on separators). -/
abbrev Fpath : Type := List String

/-- One filesystem object: a regular file (permission bits and content) or a
directory (permission bits). -/
inductive Node where
  | file (mode : Nat) (content : String)
  | dir (mode : Nat)
deriving DecidableEq

/-- A filesystem: a finite map from absolute paths to nodes, as an
association list (first binding wins). -/
abbrev FS : Type := List (Fpath × Node)

/-- Lookup, mirroring `os.Stat`: `none` is the `os.IsNotExist` case. -/
def fsFind : FS → Fpath → Option Node
  | [], _ => none
  | (q, n) :: rest, p => if q = p then some n else fsFind rest p

/-- Update or insert a binding (in place when the key is present). -/
def fsSet : FS → Fpath → Node → FS
  | [], p, n => [ (p, n) ]
  | (q, m) :: rest, p, n =>
    if q = p then (p, n) :: rest else (q, m) :: fsSet rest p n

/-- Does `p` denote an existing directory (the filesystem root `[]` always
does)? -/
def fsDirAt (fs : FS) (p : Fpath) : Bool :=
  match p with
  | [] => true
  | _ =>
    match fsFind fs p with
    | some (.dir _) => true
    | _ => false

/-- Errors surfaced by the modelled filesystem operations. -/
inductive Err where
  | notExist
  | notDir
  | isDir
  | noParent
  | dirNotFound (p : Fpath)
deriving DecidableEq

/-- Worker for `mkdirAll`, recursing on a fuel bound that always equals the
length of the remaining path (the recursion drops the last component each
time, so the fuel never runs out on the paths actually reached). -/
def mkdirAllGo (mode : Nat) : Nat → FS → Fpath → Except Err FS
  | _, fs, [] => .ok fs
  | 0, fs, _ => .ok fs
  | fuel + 1, fs, p =>
    match fsFind fs p with
    | some (.dir _) => .ok fs
    | some (.file _ _) => .error .notDir
    | none =>
      match mkdirAllGo mode fuel fs p.dropLast with
      | .error e => .error e
      | .ok fs1 => .ok (fsSet fs1 p (.dir mode))

/-- Model of `os.MkdirAll(p, mode)`: an existing directory is left alone; an
existing non-directory is an error; otherwise every missing ancestor and `p`
itself are created as directories with permission `mode`.  Ancestors are
created top-down, so a conflict aborts before anything is created. -/
def mkdirAll (fs : FS) (p : Fpath) (mode : Nat) : Except Err FS :=
  mkdirAllGo mode p.length fs p

/-- Model of the installers' `copyFile(src, dst, mode)`: open the source for
reading, open the destination with `O_CREATE|O_WRONLY|O_TRUNC` and the given
mode, and copy the bytes.  A pre-existing destination file keeps its own
permission bits (the mode argument only applies on creation) and has its
content truncated and replaced. -/
def copyFile (fs : FS) (src dst : Fpath) (mode : Nat) : Except Err FS :=
  match fsFind fs src with
  | none => .error .notExist
  | some (.dir _) => .error .isDir
  | some (.file _ content) =>
    match fsFind fs dst with
    | some (.file m _) => .ok (fsSet fs dst (.file m content))
    | some (.dir _) => .error .isDir
    | none =>
      if fsDirAt fs dst.dropLast then .ok (fsSet fs dst (.file mode content))
      else .error .noParent

/-- Names of the entries directly under `p`, before sorting. -/
def namesUnder (fs : FS) (p : Fpath) : List String :=
  List.filterMap (fun e =>
    if e.1.dropLast = p && !e.1.isEmpty then some (e.1.getLastD "") else none) fs

/-- Character-wise lexicographic comparison, matching the byte-wise order
Go's `sort.Strings` uses on directory-listing names. -/
def lexLtB : List Char → List Char → Bool
  | [], [] => false
  | [], _ :: _ => true
  | _ :: _, [] => false
  | a :: as, b :: bs => decide (a < b) || (decide (a = b) && lexLtB as bs)

/-- Lexicographic less-or-equal on strings. -/
def strLeB (a b : String) : Bool := decide (a = b) || lexLtB a.data b.data

/-- Sorted, duplicate-free child names of directory `p`, mirroring Go's
`readDirNames` (which sorts the listing). -/
def childNames (fs : FS) (p : Fpath) : List String :=
  List.insertionSort (fun a b => strLeB a b = true) (namesUnder fs p).dedup

/-- Longest path length bound for the walk fuel. -/
def fsMaxLen (fs : FS) : Nat :=
  List.foldr (fun e acc => max e.1.length acc) 0 fs

/-- Walk each named child of `p` in turn with the walker `w`. -/
def walkChildren (fs : FS) (w : Fpath → Node → List (Fpath × Node))
    (p : Fpath) : List String → List (Fpath × Node)
  | [] => []
  | name :: rest =>
    (match fsFind fs (p ++ [ name ]) with
     | some n => w (p ++ [ name ]) n
     | none => []) ++ walkChildren fs w p rest

/-- The sequence of (path, info) pairs `filepath.Walk` delivers from `p`
(whose stat result is `n`): the node itself first, then, for directories,
the recursively walked children in sorted-name order.  The fuel only bounds
the recursion depth; it is always ample when the walk starts from
`fsWalkList`. -/
def walkFrom (fs : FS) : Nat → Fpath → Node → List (Fpath × Node)
  | _, p, .file m c => [ (p, .file m c) ]
  | 0, p, .dir m => [ (p, .dir m) ]
  | fuel + 1, p, .dir m =>
    (p, .dir m) :: walkChildren fs (walkFrom fs fuel) p (childNames fs p)

/-- The full walk sequence of the tree rooted at `src` (empty when `src`
does not exist; `copyDirectory` reports that case as an error instead). -/
def fsWalkList (fs : FS) (src : Fpath) : List (Fpath × Node) :=
  match fsFind fs src with
  | none => []
  | some n => walkFrom fs (fsMaxLen fs + 1) src n

/-- The body of the walk function passed to `filepath.Walk` in
`copyDirectory`: directories are `MkdirAll`-ed at the corresponding
destination path with the source directory's mode; for files, the
destination's parent is `MkdirAll`-ed with `0o755` and then `copyFile` runs
with the source file's mode.  On error the filesystem state reached so far
is returned together with the error. -/
def walkStep (fs : FS) (src dst : Fpath) (p : Fpath) (n : Node) :
    FS × Option Err :=
  let dstPath : Fpath := dst ++ p.drop src.length
  match n with
  | .dir m =>
    match mkdirAll fs dstPath m with
    | .error e => (fs, some e)
    | .ok fs1 => (fs1, none)
  | .file m _ =>
    match mkdirAll fs dstPath.dropLast 0o755 with
    | .error e => (fs, some e)
    | .ok fs1 =>
      match copyFile fs1 p dstPath m with
      | .error e => (fs1, some e)
      | .ok fs2 => (fs2, none)

/-- Fold `walkStep` over the walk sequence, stopping at the first error
(`filepath.Walk` aborts when the walk function returns an error) and
keeping all writes performed up to that point. -/
def copyItems (fs : FS) (src dst : Fpath) :
    List (Fpath × Node) → FS × Option Err
  | [] => (fs, none)
  | (p, n) :: rest =>
    match walkStep fs src dst p n with
    | (fs1, some e) => (fs1, some e)
    | (fs1, none) => copyItems fs1 src dst rest

/-- Model of `copyDirectory(src, dst)`: walk the tree rooted at `src` and
apply the walk function to every visited entry.  A nonexistent `src` makes
the walk function receive the stat error and return it. -/
def copyDirectory (fs : FS) (src dst : Fpath) : FS × Option Err :=
  match fsFind fs src with
  | none => (fs, some .notExist)
  | some _ => copyItems fs src dst (fsWalkList fs src)

/-- Failure of a whole installer invocation. -/
inductive InstallErr where
  | decodeFailed
  | usage
  | stage (category : String) (e : Err)
deriving DecidableEq

/-- The YAML `InstallOptions` decoded from stdin by the command-dispatch
variant.  `extraOptions` values are opaque to the installer and are
modelled as strings. -/
structure InstallOptions where
  installDisk : String
  mountPrefix : Fpath
  artifactsPath : Fpath
  extraOptions : List (String × String)
deriving DecidableEq

namespace CmdInstaller

/-- Stage 1 of the command-dispatch variant: resolve the kernel-modules
source (the `artifacts/install/kernel-modules` candidate first, the legacy
`install/kernel-modules` candidate when the first stat reports not-exist),
skip with success when the resolved candidate is also absent, otherwise
copy it to `<rootfs>/lib/modules`. -/
def installKernelModules (overlayPath rootfsPath : Fpath) (fs : FS) :
    FS × Option Err :=
  let sourceDir :=
    match fsFind fs (overlayPath ++ [ "artifacts", "install", "kernel-modules" ]) with
    | none => overlayPath ++ [ "install", "kernel-modules" ]
    | some _ => overlayPath ++ [ "artifacts", "install", "kernel-modules" ]
  let targetDir := rootfsPath ++ [ "lib", "modules" ]
  match fsFind fs sourceDir with
  | none => (fs, none)
  | some _ => copyDirectory fs sourceDir targetDir

/-- Stage 2: firmware, to `<rootfs>/lib/firmware`, same resolution. -/
def installFirmware (overlayPath rootfsPath : Fpath) (fs : FS) :
    FS × Option Err :=
  let sourceDir :=
    match fsFind fs (overlayPath ++ [ "artifacts", "install", "firmware" ]) with
    | none => overlayPath ++ [ "install", "firmware" ]
    | some _ => overlayPath ++ [ "artifacts", "install", "firmware" ]
  let targetDir := rootfsPath ++ [ "lib", "firmware" ]
  match fsFind fs sourceDir with
  | none => (fs, none)
  | some _ => copyDirectory fs sourceDir targetDir

/-- Stage 3: config files, copied onto the rootfs root itself, with the
`artifacts/files` candidate first and legacy `files` second. -/
def installConfigFiles (overlayPath rootfsPath : Fpath) (fs : FS) :
    FS × Option Err :=
  let filesDir :=
    match fsFind fs (overlayPath ++ [ "artifacts", "files" ]) with
    | none => overlayPath ++ [ "files" ]
    | some _ => overlayPath ++ [ "artifacts", "files" ]
  match fsFind fs filesDir with
  | none => (fs, none)
  | some _ => copyDirectory fs filesDir rootfsPath

/-- The `install` sub-command: decode `InstallOptions` from stdin (a decode
failure aborts before any filesystem access), derive the overlay root as
the directory two levels above the executable, then run the three stages
in order, wrapping a stage failure with the stage's category and aborting
immediately. -/
def install (decoded : Option InstallOptions) (executablePath : Fpath)
    (fs : FS) : FS × Option InstallErr :=
  match decoded with
  | none => (fs, some .decodeFailed)
  | some options =>
    let rootfsPath := options.mountPrefix
    let installersDir := executablePath.dropLast
    let overlayPath := installersDir.dropLast
    match installKernelModules overlayPath rootfsPath fs with
    | (fs1, some e) => (fs1, some (.stage "kernel modules" e))
    | (fs1, none) =>
      match installFirmware overlayPath rootfsPath fs1 with
      | (fs2, some e) => (fs2, some (.stage "firmware" e))
      | (fs2, none) =>
        match installConfigFiles overlayPath rootfsPath fs2 with
        | (fs3, some e) => (fs3, some (.stage "config files" e))
        | (fs3, none) => (fs3, none)

end CmdInstaller

namespace PosInstaller

/-- Kernel modules stage of the positional-argument variant: only the
legacy `install/kernel-modules` path is consulted. -/
def installKernelModules (overlayPath rootfsPath : Fpath) (fs : FS) :
    FS × Option Err :=
  let sourceDir := overlayPath ++ [ "install", "kernel-modules" ]
  let targetDir := rootfsPath ++ [ "lib", "modules" ]
  match fsFind fs sourceDir with
  | none => (fs, none)
  | some _ => copyDirectory fs sourceDir targetDir

/-- Firmware stage: only the legacy `install/firmware` path. -/
def installFirmware (overlayPath rootfsPath : Fpath) (fs : FS) :
    FS × Option Err :=
  let sourceDir := overlayPath ++ [ "install", "firmware" ]
  let targetDir := rootfsPath ++ [ "lib", "firmware" ]
  match fsFind fs sourceDir with
  | none => (fs, none)
  | some _ => copyDirectory fs sourceDir targetDir

/-- Config files stage: only the legacy `files` path, copied onto the
rootfs root. -/
def installConfigFiles (overlayPath rootfsPath : Fpath) (fs : FS) :
    FS × Option Err :=
  let filesDir := overlayPath ++ [ "files" ]
  match fsFind fs filesDir with
  | none => (fs, none)
  | some _ => copyDirectory fs filesDir rootfsPath

/-- The whole positional-argument program: `os.Args` must hold the program
name plus two arguments (overlay root, rootfs root), otherwise it exits
with a usage error before touching the filesystem; then the three stages
run in order, a failing stage printing its category and exiting. -/
def main (args : List Fpath) (fs : FS) : FS × Option InstallErr :=
  match args with
  | _ :: overlayPath :: rootfsPath :: _ =>
    match installKernelModules overlayPath rootfsPath fs with
    | (fs1, some e) => (fs1, some (.stage "kernel modules" e))
    | (fs1, none) =>
      match installFirmware overlayPath rootfsPath fs1 with
      | (fs2, some e) => (fs2, some (.stage "firmware" e))
      | (fs2, none) =>
        match installConfigFiles overlayPath rootfsPath fs2 with
        | (fs3, some e) => (fs3, some (.stage "config files" e))
        | (fs3, none) => (fs3, none)
  | _ => (fs, some .usage)

end PosInstaller

namespace PluginInstaller

/-- The `overlay.InstallerOptions` structure passed to the plugin's
`Install` method (only the rootfs path is consulted by this overlay). -/
structure InstallerOptions where
  rootfsPath : Fpath
deriving DecidableEq

/-- The plugin `Installer` struct: holds the overlay root given to
`NewInstaller`. -/
structure Installer where
  overlayPath : Fpath
deriving DecidableEq

/-- Plugin kernel-modules stage: stats only the legacy
`install/kernel-modules` path, returns an error when it is absent, and —
the copy body being an unimplemented TODO stub — performs no write when it
is present. -/
def Installer.installKernelModules (i : Installer)
    (_options : InstallerOptions) (fs : FS) : FS × Option Err :=
  let sourceDir := i.overlayPath ++ [ "install", "kernel-modules" ]
  match fsFind fs sourceDir with
  | none => (fs, some (.dirNotFound sourceDir))
  | some _ => (fs, none)

/-- Plugin firmware stage: same shape as the kernel-modules stage. -/
def Installer.installFirmware (i : Installer) (_options : InstallerOptions)
    (fs : FS) : FS × Option Err :=
  let sourceDir := i.overlayPath ++ [ "install", "firmware" ]
  match fsFind fs sourceDir with
  | none => (fs, some (.dirNotFound sourceDir))
  | some _ => (fs, none)

/-- Plugin config-files stage: an absent `files` directory is a silent
skip, and the copy body is an unimplemented TODO stub. -/
def Installer.installConfigFiles (i : Installer) (_options : InstallerOptions)
    (fs : FS) : FS × Option Err :=
  let filesDir := i.overlayPath ++ [ "files" ]
  match fsFind fs filesDir with
  | none => (fs, none)
  | some _ => (fs, none)

/-- Plugin boot-parameters stage: an unimplemented TODO stub that always
succeeds and writes nothing. -/
def Installer.configureBootParams (_i : Installer)
    (_options : InstallerOptions) (fs : FS) : FS × Option Err :=
  (fs, none)

/-- The plugin `Install` method: the four stages in order, each failure
wrapped with its category. -/
def Installer.Install (i : Installer) (options : InstallerOptions)
    (fs : FS) : FS × Option InstallErr :=
  match i.installKernelModules options fs with
  | (fs1, some e) => (fs1, some (.stage "kernel modules" e))
  | (fs1, none) =>
    match i.installFirmware options fs1 with
    | (fs2, some e) => (fs2, some (.stage "firmware" e))
    | (fs2, none) =>
      match i.installConfigFiles options fs2 with
      | (fs3, some e) => (fs3, some (.stage "config files" e))
      | (fs3, none) =>
        match i.configureBootParams options fs3 with
        | (fs4, some e) => (fs4, some (.stage "boot params" e))
        | (fs4, none) => (fs4, none)

end PluginInstaller

/-! ## Claim C1: absence handling per variant -/

/-- Overlay-less concrete options used by several witnesses. -/
def optsEx : InstallOptions := ⟨ "/dev/sda", [ "root" ], [], [] ⟩

/-- C1: counterexample.  The claim says that, for every category, every
orchestrator variant treats an absent source directory as a non-fatal skip.
On the empty filesystem the plugin-interface variant's `Install` aborts at
the kernel-modules stage with an error instead of skipping. -/
theorem c1_counterexample :
    PluginInstaller.Installer.Install ⟨ [ "ov" ] ⟩ ⟨ [ "root" ] ⟩ [] =
      ([], some (.stage "kernel modules"
        (.dirNotFound [ "ov", "install", "kernel-modules" ]))) := by
  decide

/-- C1 (amended): for every category the two CLI variants treat absence at
all candidate paths as a non-fatal skip (no copy, success), and the
command-dispatch orchestrator with every category absent completes with
success; the plugin-interface variant instead fails on an absent
kernel-modules or firmware directory and only skips absent config files. -/
theorem c1_amended (fs : FS) (ov rt : Fpath) (opts : InstallOptions)
    (exe : Fpath) (i : PluginInstaller.Installer)
    (o : PluginInstaller.InstallerOptions) :
    (fsFind fs (ov ++ [ "artifacts", "install", "kernel-modules" ]) = none →
      fsFind fs (ov ++ [ "install", "kernel-modules" ]) = none →
      CmdInstaller.installKernelModules ov rt fs = (fs, none)) ∧
    (fsFind fs (ov ++ [ "artifacts", "install", "firmware" ]) = none →
      fsFind fs (ov ++ [ "install", "firmware" ]) = none →
      CmdInstaller.installFirmware ov rt fs = (fs, none)) ∧
    (fsFind fs (ov ++ [ "artifacts", "files" ]) = none →
      fsFind fs (ov ++ [ "files" ]) = none →
      CmdInstaller.installConfigFiles ov rt fs = (fs, none)) ∧
    (fsFind fs (ov ++ [ "install", "kernel-modules" ]) = none →
      PosInstaller.installKernelModules ov rt fs = (fs, none)) ∧
    (fsFind fs (ov ++ [ "install", "firmware" ]) = none →
      PosInstaller.installFirmware ov rt fs = (fs, none)) ∧
    (fsFind fs (ov ++ [ "files" ]) = none →
      PosInstaller.installConfigFiles ov rt fs = (fs, none)) ∧
    (fsFind fs (i.overlayPath ++ [ "install", "kernel-modules" ]) = none →
      i.installKernelModules o fs =
        (fs, some (.dirNotFound (i.overlayPath ++ [ "install", "kernel-modules" ])))) ∧
    (fsFind fs (i.overlayPath ++ [ "install", "firmware" ]) = none →
      i.installFirmware o fs =
        (fs, some (.dirNotFound (i.overlayPath ++ [ "install", "firmware" ])))) ∧
    (fsFind fs (i.overlayPath ++ [ "files" ]) = none →
      i.installConfigFiles o fs = (fs, none)) ∧
    ((∀ c : Fpath,
        (c = exe.dropLast.dropLast ++ [ "artifacts", "install", "kernel-modules" ] ∨
         c = exe.dropLast.dropLast ++ [ "install", "kernel-modules" ] ∨
         c = exe.dropLast.dropLast ++ [ "artifacts", "install", "firmware" ] ∨
         c = exe.dropLast.dropLast ++ [ "install", "firmware" ] ∨
         c = exe.dropLast.dropLast ++ [ "artifacts", "files" ] ∨
         c = exe.dropLast.dropLast ++ [ "files" ]) → fsFind fs c = none) →
      CmdInstaller.install (some opts) exe fs = (fs, none)) := by
  refine ⟨?_, ?_, ?_, ?_, ?_, ?_, ?_, ?_, ?_, ?_⟩
  · intro h1 h2
    simp only [CmdInstaller.installKernelModules, h1, h2]
  · intro h1 h2
    simp only [CmdInstaller.installFirmware, h1, h2]
  · intro h1 h2
    simp only [CmdInstaller.installConfigFiles, h1, h2]
  · intro h1
    simp only [PosInstaller.installKernelModules, h1]
  · intro h1
    simp only [PosInstaller.installFirmware, h1]
  · intro h1
    simp only [PosInstaller.installConfigFiles, h1]
  · intro h1
    simp only [PluginInstaller.Installer.installKernelModules, h1]
  · intro h1
    simp only [PluginInstaller.Installer.installFirmware, h1]
  · intro h1
    simp only [PluginInstaller.Installer.installConfigFiles, h1]
  · intro habs
    have h1 := habs _ (Or.inl rfl)
    have h2 := habs _ (Or.inr (Or.inl rfl))
    have h3 := habs _ (Or.inr (Or.inr (Or.inl rfl)))
    have h4 := habs _ (Or.inr (Or.inr (Or.inr (Or.inl rfl))))
    have h5 := habs _ (Or.inr (Or.inr (Or.inr (Or.inr (Or.inl rfl)))))
    have h6 := habs _ (Or.inr (Or.inr (Or.inr (Or.inr (Or.inr rfl)))))
    simp only [CmdInstaller.install, CmdInstaller.installKernelModules,
      CmdInstaller.installFirmware, CmdInstaller.installConfigFiles,
      h1, h2, h3, h4, h5, h6]

/-- C1 (amended) witness: the amended theorem applied on the empty
filesystem, where every hypothesis holds. -/
theorem c1_amended_witness :
    CmdInstaller.installKernelModules [ "ov" ] [ "root" ] [] = ([], none) ∧
    PluginInstaller.Installer.installKernelModules ⟨ [ "ov" ] ⟩ ⟨ [ "root" ] ⟩ [] =
      ([], some (.dirNotFound [ "ov", "install", "kernel-modules" ])) ∧
    CmdInstaller.install (some optsEx) [ "ov", "installers", "bin" ] [] = ([], none) := by
  have h := c1_amended [] [ "ov" ] [ "root" ] optsEx [ "ov", "installers", "bin" ]
    ⟨ [ "ov" ] ⟩ ⟨ [ "root" ] ⟩
  refine ⟨h.1 (by decide) (by decide), ?_, ?_⟩
  · exact h.2.2.2.2.2.2.1 (by decide)
  · exact h.2.2.2.2.2.2.2.2.2 (fun c _ => by simp [fsFind])

/-! ## Claim C4: non-directory candidates in path resolution -/

/-- Concrete filesystem for the C4 counterexample: the preferred
kernel-modules candidate exists but is a regular file, while the legacy
candidate is a directory. -/
def c4fs : FS :=
  [ ([ "ov", "artifacts", "install", "kernel-modules" ], .file 0o644 "x"),
    ([ "ov", "install", "kernel-modules" ], .dir 0o755),
    ([ "root" ], .dir 0o755) ]

/-- C4: counterexample.  The claim says an existing non-directory candidate
is treated like an absent one and never selected as a source.  In the code
resolution only checks existence, so the regular file at the preferred
candidate is selected and copied: the stage succeeds and the target
`root/lib/modules` ends up as a regular file with the candidate file's mode
and content, instead of the legacy directory being used. -/
theorem c4_counterexample :
    fsFind c4fs [ "ov", "artifacts", "install", "kernel-modules" ] =
      some (.file 0o644 "x") ∧
    fsFind c4fs [ "ov", "install", "kernel-modules" ] = some (.dir 0o755) ∧
    (CmdInstaller.installKernelModules [ "ov" ] [ "root" ] c4fs).2 = none ∧
    fsFind (CmdInstaller.installKernelModules [ "ov" ] [ "root" ] c4fs).1
      [ "root", "lib", "modules" ] = some (.file 0o644 "x") := by
  decide

/-- C4 (amended): path resolution checks only existence, never
directory-ness.  A regular file at the preferred candidate is selected as
the source in every command-dispatch category (its walk then visits just
that one file), a regular file at the legacy candidate is selected by the
positional variant, and the plugin variant's stat likewise accepts a
regular file as present. -/
theorem c4_amended (fs : FS) (ov rt : Fpath) (m : Nat) (c : String)
    (i : PluginInstaller.Installer) (o : PluginInstaller.InstallerOptions) :
    (fsFind fs (ov ++ [ "artifacts", "install", "kernel-modules" ]) = some (.file m c) →
      CmdInstaller.installKernelModules ov rt fs =
        copyDirectory fs (ov ++ [ "artifacts", "install", "kernel-modules" ])
          (rt ++ [ "lib", "modules" ]) ∧
      fsWalkList fs (ov ++ [ "artifacts", "install", "kernel-modules" ]) =
        [ (ov ++ [ "artifacts", "install", "kernel-modules" ], .file m c) ]) ∧
    (fsFind fs (ov ++ [ "artifacts", "install", "firmware" ]) = some (.file m c) →
      CmdInstaller.installFirmware ov rt fs =
        copyDirectory fs (ov ++ [ "artifacts", "install", "firmware" ])
          (rt ++ [ "lib", "firmware" ])) ∧
    (fsFind fs (ov ++ [ "artifacts", "files" ]) = some (.file m c) →
      CmdInstaller.installConfigFiles ov rt fs =
        copyDirectory fs (ov ++ [ "artifacts", "files" ]) rt) ∧
    (fsFind fs (ov ++ [ "install", "kernel-modules" ]) = some (.file m c) →
      PosInstaller.installKernelModules ov rt fs =
        copyDirectory fs (ov ++ [ "install", "kernel-modules" ])
          (rt ++ [ "lib", "modules" ])) ∧
    (fsFind fs (ov ++ [ "install", "firmware" ]) = some (.file m c) →
      PosInstaller.installFirmware ov rt fs =
        copyDirectory fs (ov ++ [ "install", "firmware" ])
          (rt ++ [ "lib", "firmware" ])) ∧
    (fsFind fs (ov ++ [ "files" ]) = some (.file m c) →
      PosInstaller.installConfigFiles ov rt fs =
        copyDirectory fs (ov ++ [ "files" ]) rt) ∧
    (fsFind fs (i.overlayPath ++ [ "install", "kernel-modules" ]) = some (.file m c) →
      i.installKernelModules o fs = (fs, none)) := by
  refine ⟨?_, ?_, ?_, ?_, ?_, ?_, ?_⟩
  · intro h
    constructor
    · simp only [CmdInstaller.installKernelModules, h]
    · simp only [fsWalkList, h, walkFrom]
  · intro h
    simp only [CmdInstaller.installFirmware, h]
  · intro h
    simp only [CmdInstaller.installConfigFiles, h]
  · intro h
    simp only [PosInstaller.installKernelModules, h]
  · intro h
    simp only [PosInstaller.installFirmware, h]
  · intro h
    simp only [PosInstaller.installConfigFiles, h]
  · intro h
    simp only [PluginInstaller.Installer.installKernelModules, h]

/-- C4 (amended) witness: the amended theorem applied to `c4fs`. -/
theorem c4_amended_witness :
    CmdInstaller.installKernelModules [ "ov" ] [ "root" ] c4fs =
      copyDirectory c4fs [ "ov", "artifacts", "install", "kernel-modules" ]
        [ "root", "lib", "modules" ] ∧
    fsWalkList c4fs [ "ov", "artifacts", "install", "kernel-modules" ] =
      [ ([ "ov", "artifacts", "install", "kernel-modules" ], .file 0o644 "x") ] :=
  (c4_amended c4fs [ "ov" ] [ "root" ] 0o644 "x" ⟨ [ "ov" ] ⟩ ⟨ [ "root" ] ⟩).1
    (by decide)

/-! ## Claim C7: no writes before options are resolved -/

/-- C7: under both invocation protocols no filesystem write happens before
the install options are resolved: a stdin decode failure in the
command-dispatch variant and a missing positional argument in the
positional variant both abort with the filesystem untouched. -/
theorem c7_no_write_before_options :
    (∀ (exe : Fpath) (fs : FS),
      CmdInstaller.install none exe fs = (fs, some .decodeFailed)) ∧
    (∀ (args : List Fpath) (fs : FS), args.length < 3 →
      PosInstaller.main args fs = (fs, some .usage)) := by
  constructor
  · intro exe fs
    rfl
  · intro args fs h
    match args with
    | [] => rfl
    | [ _ ] => rfl
    | [ _, _ ] => rfl
    | _ :: _ :: _ :: _ => exact absurd h (by simp)

/-- C7 witness: both protocols on a nonempty concrete filesystem. -/
theorem c7_witness :
    CmdInstaller.install none [ "ov", "installers", "bin" ]
      [ ([ "root" ], .dir 0o755) ] =
      ([ ([ "root" ], .dir 0o755) ], some .decodeFailed) ∧
    PosInstaller.main [ [ "prog" ], [ "ov" ] ] [ ([ "root" ], .dir 0o755) ] =
      ([ ([ "root" ], .dir 0o755) ], some .usage) :=
  ⟨c7_no_write_before_options.1 [ "ov", "installers", "bin" ] _,
   c7_no_write_before_options.2 [ [ "prog" ], [ "ov" ] ] _ (by decide)⟩

/-! ## Claim C9: copyFile semantics on pre-existing destinations -/

/-- C9: `copyFile` truncates and replaces the content of a pre-existing
destination file while leaving its permission bits unchanged; the source
mode argument is applied only when the destination file is newly created. -/
theorem c9_copyFile_pre_existing (fs : FS) (src dst : Fpath)
    (ms md mode : Nat) (cs cd : String) :
    (fsFind fs src = some (.file ms cs) →
      fsFind fs dst = some (.file md cd) →
      copyFile fs src dst mode = .ok (fsSet fs dst (.file md cs))) ∧
    (fsFind fs src = some (.file ms cs) →
      fsFind fs dst = none →
      fsDirAt fs dst.dropLast = true →
      copyFile fs src dst mode = .ok (fsSet fs dst (.file mode cs))) := by
  constructor
  · intro h1 h2
    simp only [copyFile, h1, h2]
  · intro h1 h2 h3
    simp only [copyFile, h1, h2, h3, if_true]

/-- C9 witness: copying over a pre-populated destination keeps the
destination's `0o600` bits while replacing the content, so the destination
mode differs from the source's `0o644`. -/
theorem c9_witness :
    copyFile
      [ ([ "s" ], .file 0o644 "new"), ([ "d" ], .file 0o600 "old") ]
      [ "s" ] [ "d" ] 0o644 =
      .ok (fsSet [ ([ "s" ], .file 0o644 "new"), ([ "d" ], .file 0o600 "old") ]
        [ "d" ] (.file 0o600 "new")) :=
  (c9_copyFile_pre_existing _ [ "s" ] [ "d" ] 0o644 0o600 0o644 "new" "old").1
    (by decide) (by decide)

/-! ## Claim C10: installDisk and extraOptions are behaviourally inert -/

/-- C10: two decoded option documents that differ only in `installDisk`
and/or `extraOptions` (same `mountPrefix`, same `artifactsPath`) drive the
command-dispatch install to identical filesystem effects and identical
outcomes. -/
theorem c10_options_inert (o1 o2 : InstallOptions) (exe : Fpath) (fs : FS)
    (hm : o1.mountPrefix = o2.mountPrefix)
    (ha : o1.artifactsPath = o2.artifactsPath) :
    CmdInstaller.install (some o1) exe fs = CmdInstaller.install (some o2) exe fs := by
  cases o1
  cases o2
  simp only [CmdInstaller.install]
  simp_all

/-- C10 witness: options differing in `installDisk` and `extraOptions`. -/
theorem c10_witness :
    CmdInstaller.install
      (some ⟨ "/dev/sda", [ "root" ], [], [] ⟩) [ "ov", "installers", "bin" ] [] =
    CmdInstaller.install
      (some ⟨ "/dev/nvme0n1", [ "root" ], [], [ ("k", "v") ] ⟩)
      [ "ov", "installers", "bin" ] [] :=
  c10_options_inert _ _ [ "ov", "installers", "bin" ] [] rfl rfl

/-! ## Claim C6: failing stages abort orchestration -/

/-- C6: in every orchestrator variant, a stage whose source is present but
whose copy fails aborts the run immediately with an error wrapped under the
failing stage's category; the returned filesystem is exactly the state the
failing stage left behind (all earlier-stage writes and the failing stage's
partial writes are kept, nothing is undone), and no later stage runs. -/
theorem c6_stage_failure_aborts (opts : InstallOptions) (exe : Fpath)
    (args0 ov rt : Fpath) (fs fs1 fs2 fsFail : FS) (e : Err) :
    (CmdInstaller.installKernelModules exe.dropLast.dropLast opts.mountPrefix fs =
        (fsFail, some e) →
      CmdInstaller.install (some opts) exe fs =
        (fsFail, some (.stage "kernel modules" e))) ∧
    (CmdInstaller.installKernelModules exe.dropLast.dropLast opts.mountPrefix fs =
        (fs1, none) →
      CmdInstaller.installFirmware exe.dropLast.dropLast opts.mountPrefix fs1 =
        (fsFail, some e) →
      CmdInstaller.install (some opts) exe fs =
        (fsFail, some (.stage "firmware" e))) ∧
    (CmdInstaller.installKernelModules exe.dropLast.dropLast opts.mountPrefix fs =
        (fs1, none) →
      CmdInstaller.installFirmware exe.dropLast.dropLast opts.mountPrefix fs1 =
        (fs2, none) →
      CmdInstaller.installConfigFiles exe.dropLast.dropLast opts.mountPrefix fs2 =
        (fsFail, some e) →
      CmdInstaller.install (some opts) exe fs =
        (fsFail, some (.stage "config files" e))) ∧
    (PosInstaller.installKernelModules ov rt fs = (fsFail, some e) →
      PosInstaller.main [ args0, ov, rt ] fs =
        (fsFail, some (.stage "kernel modules" e))) ∧
    (PosInstaller.installKernelModules ov rt fs = (fs1, none) →
      PosInstaller.installFirmware ov rt fs1 = (fsFail, some e) →
      PosInstaller.main [ args0, ov, rt ] fs =
        (fsFail, some (.stage "firmware" e))) ∧
    (PosInstaller.installKernelModules ov rt fs = (fs1, none) →
      PosInstaller.installFirmware ov rt fs1 = (fs2, none) →
      PosInstaller.installConfigFiles ov rt fs2 = (fsFail, some e) →
      PosInstaller.main [ args0, ov, rt ] fs =
        (fsFail, some (.stage "config files" e))) := by
  refine ⟨?_, ?_, ?_, ?_, ?_, ?_⟩
  · intro h1
    simp only [CmdInstaller.install, h1]
  · intro h1 h2
    simp only [CmdInstaller.install, h1, h2]
  · intro h1 h2 h3
    simp only [CmdInstaller.install, h1, h2, h3]
  · intro h1
    simp only [PosInstaller.main, h1]
  · intro h1 h2
    simp only [PosInstaller.main, h1, h2]
  · intro h1 h2 h3
    simp only [PosInstaller.main, h1, h2, h3]

/-- Concrete filesystem on which the kernel-modules copy fails: the
overlay stages a kernel-modules directory, but the rootfs already has a
regular file at `root/lib`, so `MkdirAll(root/lib/modules)` fails. -/
def c6fs : FS :=
  [ ([ "ov", "install", "kernel-modules" ], .dir 0o755),
    ([ "root" ], .dir 0o755),
    ([ "root", "lib" ], .file 0o644 "junk") ]

/-- C6 witness: the kernel-modules stage fails on `c6fs` and the
command-dispatch orchestrator surfaces exactly the wrapped stage error with
the filesystem state the failing stage left. -/
theorem c6_witness :
    CmdInstaller.install (some optsEx) [ "ov", "installers", "bin" ] c6fs =
      (c6fs, some (.stage "kernel modules" .notDir)) :=
  (c6_stage_failure_aborts optsEx [ "ov", "installers", "bin" ]
    [ "prog" ] [ "ov" ] [ "root" ] c6fs [] [] c6fs .notDir).1 (by decide)

/-! ## Claim C3: candidate lists per invocation shape -/

/-- Concrete filesystem for the C3 counterexample: only the preferred
`artifacts/install/kernel-modules` layout exists. -/
def c3fs : FS :=
  [ ([ "ov" ], .dir 0o755),
    ([ "ov", "artifacts" ], .dir 0o755),
    ([ "ov", "artifacts", "install" ], .dir 0o755),
    ([ "ov", "artifacts", "install", "kernel-modules" ], .dir 0o755),
    ([ "ov", "artifacts", "install", "kernel-modules", "a.ko" ], .file 0o644 "m"),
    ([ "root" ], .dir 0o755) ]

/-- C3: counterexample.  The claim says path resolution tries the
`artifacts/` candidate first for every invocation shape.  The
positional-argument variant never consults it: with only the artifacts
layout present it skips the category and installs nothing. -/
theorem c3_counterexample :
    fsFind c3fs [ "ov", "artifacts", "install", "kernel-modules" ] =
      some (.dir 0o755) ∧
    PosInstaller.installKernelModules [ "ov" ] [ "root" ] c3fs = (c3fs, none) ∧
    fsFind (PosInstaller.installKernelModules [ "ov" ] [ "root" ] c3fs).1
      [ "root", "lib", "modules" ] = none := by
  decide

/-- C3 (amended): only the command-dispatch variant resolves each category
through the two-candidate list (`artifacts/` candidate first, legacy flat
candidate second); the positional and plugin variants consult only the
legacy candidate.  When the preferred candidate is absent and the legacy
path exists, the legacy path is selected and installation proceeds from it
with the same copy routine and the same target directory as in the
current-layout case. -/
theorem c3_amended (fs : FS) (ov rt : Fpath) (n : Node)
    (i : PluginInstaller.Installer) (o : PluginInstaller.InstallerOptions) :
    (fsFind fs (ov ++ [ "artifacts", "install", "kernel-modules" ]) = some n →
      CmdInstaller.installKernelModules ov rt fs =
        copyDirectory fs (ov ++ [ "artifacts", "install", "kernel-modules" ])
          (rt ++ [ "lib", "modules" ])) ∧
    (fsFind fs (ov ++ [ "artifacts", "install", "kernel-modules" ]) = none →
      fsFind fs (ov ++ [ "install", "kernel-modules" ]) = some n →
      CmdInstaller.installKernelModules ov rt fs =
        copyDirectory fs (ov ++ [ "install", "kernel-modules" ])
          (rt ++ [ "lib", "modules" ])) ∧
    (fsFind fs (ov ++ [ "artifacts", "install", "firmware" ]) = some n →
      CmdInstaller.installFirmware ov rt fs =
        copyDirectory fs (ov ++ [ "artifacts", "install", "firmware" ])
          (rt ++ [ "lib", "firmware" ])) ∧
    (fsFind fs (ov ++ [ "artifacts", "install", "firmware" ]) = none →
      fsFind fs (ov ++ [ "install", "firmware" ]) = some n →
      CmdInstaller.installFirmware ov rt fs =
        copyDirectory fs (ov ++ [ "install", "firmware" ])
          (rt ++ [ "lib", "firmware" ])) ∧
    (fsFind fs (ov ++ [ "artifacts", "files" ]) = some n →
      CmdInstaller.installConfigFiles ov rt fs =
        copyDirectory fs (ov ++ [ "artifacts", "files" ]) rt) ∧
    (fsFind fs (ov ++ [ "artifacts", "files" ]) = none →
      fsFind fs (ov ++ [ "files" ]) = some n →
      CmdInstaller.installConfigFiles ov rt fs =
        copyDirectory fs (ov ++ [ "files" ]) rt) ∧
    (fsFind fs (ov ++ [ "artifacts", "install", "kernel-modules" ]) = none →
      CmdInstaller.installKernelModules ov rt fs =
        PosInstaller.installKernelModules ov rt fs) ∧
    (fsFind fs (ov ++ [ "install", "kernel-modules" ]) = some n →
      PosInstaller.installKernelModules ov rt fs =
        copyDirectory fs (ov ++ [ "install", "kernel-modules" ])
          (rt ++ [ "lib", "modules" ])) ∧
    (fsFind fs (i.overlayPath ++ [ "install", "kernel-modules" ]) = none →
      i.installKernelModules o fs =
        (fs, some (.dirNotFound (i.overlayPath ++ [ "install", "kernel-modules" ])))) ∧
    (fsFind fs (i.overlayPath ++ [ "install", "kernel-modules" ]) = some n →
      i.installKernelModules o fs = (fs, none)) := by
  refine ⟨?_, ?_, ?_, ?_, ?_, ?_, ?_, ?_, ?_, ?_⟩
  · intro h
    simp only [CmdInstaller.installKernelModules, h]
  · intro h1 h2
    simp only [CmdInstaller.installKernelModules, h1, h2]
  · intro h
    simp only [CmdInstaller.installFirmware, h]
  · intro h1 h2
    simp only [CmdInstaller.installFirmware, h1, h2]
  · intro h
    simp only [CmdInstaller.installConfigFiles, h]
  · intro h1 h2
    simp only [CmdInstaller.installConfigFiles, h1, h2]
  · intro h1
    simp only [CmdInstaller.installKernelModules, PosInstaller.installKernelModules, h1]
  · intro h
    simp only [PosInstaller.installKernelModules, h]
  · intro h
    simp only [PluginInstaller.Installer.installKernelModules, h]
  · intro h
    simp only [PluginInstaller.Installer.installKernelModules, h]

/-- Concrete legacy-only overlay for the C3 witness. -/
def c3legacyFs : FS :=
  [ ([ "ov" ], .dir 0o755),
    ([ "ov", "install" ], .dir 0o755),
    ([ "ov", "install", "kernel-modules" ], .dir 0o755),
    ([ "ov", "install", "kernel-modules", "a.ko" ], .file 0o644 "m"),
    ([ "root" ], .dir 0o755) ]

/-- C3 (amended) witness: with only the legacy layout staged, the
command-dispatch variant selects the legacy path and runs the same copy
routine into the same target. -/
theorem c3_amended_witness :
    CmdInstaller.installKernelModules [ "ov" ] [ "root" ] c3legacyFs =
      copyDirectory c3legacyFs [ "ov", "install", "kernel-modules" ]
        [ "root", "lib", "modules" ] ∧
    CmdInstaller.installKernelModules [ "ov" ] [ "root" ] c3legacyFs =
      PosInstaller.installKernelModules [ "ov" ] [ "root" ] c3legacyFs :=
  ⟨(c3_amended c3legacyFs [ "ov" ] [ "root" ] (.dir 0o755)
      ⟨ [ "ov" ] ⟩ ⟨ [ "root" ] ⟩).2.1 (by decide) (by decide),
   (c3_amended c3legacyFs [ "ov" ] [ "root" ] (.dir 0o755)
      ⟨ [ "ov" ] ⟩ ⟨ [ "root" ] ⟩).2.2.2.2.2.2.1 (by decide)⟩

/-! ## Basic lemmas about the filesystem map and path prefixes -/

theorem fsFind_fsSet_self (fs : FS) (p : Fpath) (n : Node) :
    fsFind (fsSet fs p n) p = some n := by
  induction fs with
  | nil => simp [fsSet, fsFind]
  | cons e rest ih =>
    by_cases h : e.1 = p
    · simp [fsSet, h, fsFind]
    · simp [fsSet, h, fsFind, ih]

theorem fsFind_fsSet_ne (fs : FS) (p : Fpath) (n : Node) (q : Fpath)
    (h : q ≠ p) : fsFind (fsSet fs p n) q = fsFind fs q := by
  induction fs with
  | nil => simp [fsSet, fsFind, Ne.symm h]
  | cons e rest ih =>
    by_cases he : e.1 = p
    · simp [fsSet, he, fsFind, Ne.symm h]
    · simp only [fsSet, he, if_false, fsFind, ih]

theorem fsSet_self_of_find (fs : FS) (p : Fpath) (n : Node)
    (h : fsFind fs p = some n) : fsSet fs p n = fs := by
  induction fs with
  | nil => simp [fsFind] at h
  | cons e rest ih =>
    obtain ⟨q1, n1⟩ := e
    by_cases he : q1 = p
    · subst he
      simp only [fsFind, if_true] at h
      cases h
      simp [fsSet]
    · simp only [fsFind, he, if_false] at h
      simp [fsSet, he, ih h]

theorem prefix_of_prefix_dropLast {q p : Fpath} (h : q <+: p.dropLast) :
    q <+: p :=
  h.trans (List.dropLast_prefix p)

theorem prefix_split {q dst rel : Fpath} (h : q <+: dst ++ rel) :
    q <+: dst ∨ dst <+: q :=
  List.prefix_or_prefix_of_prefix h (List.prefix_append dst rel)

/-- Paths extending `ov` are unrelated to `rt` when `ov` and `rt` are
mutually non-prefix. -/
theorem ovExt_unrelated {ov rt : Fpath} (hA : ¬ ov <+: rt) (hB : ¬ rt <+: ov)
    (x : Fpath) : ¬ (ov ++ x) <+: rt ∧ ¬ rt <+: (ov ++ x) := by
  constructor
  · intro h
    exact hA ((List.prefix_append ov x).trans h)
  · intro h
    rcases prefix_split h with h' | h'
    · exact hB h'
    · exact hA h'

/-! ## Framing: the copy operations only touch the destination region -/

theorem mkdirAllGo_frame (mode : Nat) :
    ∀ (fuel : Nat) (fs : FS) (p q : Fpath) (fs' : FS),
      mkdirAllGo mode fuel fs p = .ok fs' → ¬ q <+: p →
      fsFind fs' q = fsFind fs q := by
  intro fuel
  induction fuel with
  | zero =>
    intro fs p q fs' hok _
    cases p with
    | nil => cases hok; rfl
    | cons a t => cases hok; rfl
  | succ f ih =>
    intro fs p q fs' hok hq
    cases p with
    | nil => cases hok; rfl
    | cons a t =>
      simp only [mkdirAllGo] at hok
      cases hfind : fsFind fs (a :: t) with
      | some n =>
        cases n with
        | dir m => rw [hfind] at hok; cases hok; rfl
        | file m c => rw [hfind] at hok; cases hok
      | none =>
        rw [hfind] at hok
        cases hrec : mkdirAllGo mode f fs (a :: t).dropLast with
        | error e => rw [hrec] at hok; cases hok
        | ok fs1 =>
          rw [hrec] at hok
          cases hok
          have hqp : q ≠ a :: t := fun hh => hq (hh ▸ List.prefix_rfl)
          rw [fsFind_fsSet_ne fs1 (a :: t) _ q hqp]
          exact ih fs (a :: t).dropLast q fs1 hrec
            (fun hh => hq (prefix_of_prefix_dropLast hh))

theorem mkdirAll_frame {fs : FS} {p q : Fpath} {mode : Nat} {fs' : FS}
    (hok : mkdirAll fs p mode = .ok fs') (hq : ¬ q <+: p) :
    fsFind fs' q = fsFind fs q :=
  mkdirAllGo_frame mode p.length fs p q fs' hok hq

theorem copyFile_frame {fs : FS} {src dst : Fpath} {mode : Nat} {fs' : FS}
    (hok : copyFile fs src dst mode = .ok fs') {q : Fpath} (hq : q ≠ dst) :
    fsFind fs' q = fsFind fs q := by
  simp only [copyFile] at hok
  cases hs : fsFind fs src with
  | none => rw [hs] at hok; cases hok
  | some n =>
    cases n with
    | dir m => rw [hs] at hok; cases hok
    | file m c =>
      rw [hs] at hok
      cases hd : fsFind fs dst with
      | some n2 =>
        cases n2 with
        | file m2 c2 =>
          rw [hd] at hok
          cases hok
          exact fsFind_fsSet_ne fs dst _ q hq
        | dir m2 => rw [hd] at hok; cases hok
      | none =>
        rw [hd] at hok
        by_cases hpar : fsDirAt fs dst.dropLast = true
        · rw [hpar] at hok
          simp only [if_true] at hok
          cases hok
          exact fsFind_fsSet_ne fs dst _ q hq
        · rw [eq_false_of_ne_true hpar] at hok
          simp only [Bool.false_eq_true, if_false] at hok
          cases hok

theorem walkStep_frame {fs : FS} {src dst p : Fpath} {n : Node}
    {fs' : FS} {e? : Option Err}
    (h : walkStep fs src dst p n = (fs', e?)) {q : Fpath}
    (hq : ¬ q <+: dst ++ p.drop src.length) :
    fsFind fs' q = fsFind fs q := by
  cases n with
  | dir m =>
    simp only [walkStep] at h
    cases hmk : mkdirAll fs (dst ++ p.drop src.length) m with
    | error e => rw [hmk] at h; cases h; rfl
    | ok fs1 =>
      rw [hmk] at h
      cases h
      exact mkdirAll_frame hmk hq
  | file m c =>
    simp only [walkStep] at h
    cases hmk : mkdirAll fs (dst ++ p.drop src.length).dropLast 0o755 with
    | error e => rw [hmk] at h; cases h; rfl
    | ok fs1 =>
      rw [hmk] at h
      dsimp only at h
      have h1 : fsFind fs1 q = fsFind fs q :=
        mkdirAll_frame hmk (fun hh => hq (prefix_of_prefix_dropLast hh))
      cases hcp : copyFile fs1 p (dst ++ p.drop src.length) m with
      | error e => rw [hcp] at h; cases h; exact h1
      | ok fs2 =>
        rw [hcp] at h
        cases h
        rw [copyFile_frame hcp (fun hh => hq (hh ▸ List.prefix_rfl))]
        exact h1

theorem copyItems_frame {src dst : Fpath} :
    ∀ (items : List (Fpath × Node)) (fs fs' : FS) (e? : Option Err),
      copyItems fs src dst items = (fs', e?) →
      ∀ q : Fpath, ¬ q <+: dst → ¬ dst <+: q →
      fsFind fs' q = fsFind fs q := by
  intro items
  induction items with
  | nil =>
    intro fs fs' e? h q _ _
    cases h
    rfl
  | cons it rest ih =>
    intro fs fs' e? h q h1 h2
    simp only [copyItems] at h
    have hq : ¬ q <+: dst ++ it.1.drop src.length := by
      intro hh
      rcases prefix_split hh with h' | h'
      · exact h1 h'
      · exact h2 h'
    cases hstep : walkStep fs src dst it.1 it.2 with
    | mk fs1 e1 =>
      rw [hstep] at h
      cases e1 with
      | some e =>
        simp only at h
        cases h
        exact walkStep_frame hstep hq
      | none =>
        simp only at h
        rw [ih fs1 fs' e? h q h1 h2]
        exact walkStep_frame hstep hq

theorem copyDirectory_frame {fs : FS} {src dst : Fpath} {fs' : FS}
    {e? : Option Err} (h : copyDirectory fs src dst = (fs', e?))
    {q : Fpath} (h1 : ¬ q <+: dst) (h2 : ¬ dst <+: q) :
    fsFind fs' q = fsFind fs q := by
  simp only [copyDirectory] at h
  cases hs : fsFind fs src with
  | none => rw [hs] at h; cases h; rfl
  | some n =>
    rw [hs] at h
    exact copyItems_frame _ fs fs' e? h q h1 h2

/-- Copies whose destination extends `rt` leave paths unrelated to `rt`
unchanged. -/
theorem copyDirectory_rt_frame {fs : FS} {src rt x : Fpath} {fs' : FS}
    {e? : Option Err} (h : copyDirectory fs src (rt ++ x) = (fs', e?))
    {q : Fpath} (h1 : ¬ q <+: rt) (h2 : ¬ rt <+: q) :
    fsFind fs' q = fsFind fs q := by
  refine copyDirectory_frame h ?_ ?_
  · intro hh
    rcases prefix_split hh with h' | h'
    · exact h1 h'
    · exact h2 h'
  · intro hh
    exact h2 ((List.prefix_append rt x).trans hh)

theorem posKM_frame {ov rt : Fpath} {fs fs' : FS} {e? : Option Err}
    (h : PosInstaller.installKernelModules ov rt fs = (fs', e?))
    {q : Fpath} (h1 : ¬ q <+: rt) (h2 : ¬ rt <+: q) :
    fsFind fs' q = fsFind fs q := by
  simp only [PosInstaller.installKernelModules] at h
  cases hs : fsFind fs (ov ++ [ "install", "kernel-modules" ]) with
  | none => rw [hs] at h; cases h; rfl
  | some n => rw [hs] at h; exact copyDirectory_rt_frame h h1 h2

theorem posFW_frame {ov rt : Fpath} {fs fs' : FS} {e? : Option Err}
    (h : PosInstaller.installFirmware ov rt fs = (fs', e?))
    {q : Fpath} (h1 : ¬ q <+: rt) (h2 : ¬ rt <+: q) :
    fsFind fs' q = fsFind fs q := by
  simp only [PosInstaller.installFirmware] at h
  cases hs : fsFind fs (ov ++ [ "install", "firmware" ]) with
  | none => rw [hs] at h; cases h; rfl
  | some n => rw [hs] at h; exact copyDirectory_rt_frame h h1 h2

/-- With the preferred `artifacts/` candidate absent, the command-dispatch
kernel-modules stage coincides with the positional variant's stage. -/
theorem kmStage_eq (fs : FS) (ov rt : Fpath)
    (h : fsFind fs (ov ++ [ "artifacts", "install", "kernel-modules" ]) = none) :
    CmdInstaller.installKernelModules ov rt fs =
      PosInstaller.installKernelModules ov rt fs := by
  simp only [CmdInstaller.installKernelModules,
    PosInstaller.installKernelModules, h]

theorem fwStage_eq (fs : FS) (ov rt : Fpath)
    (h : fsFind fs (ov ++ [ "artifacts", "install", "firmware" ]) = none) :
    CmdInstaller.installFirmware ov rt fs =
      PosInstaller.installFirmware ov rt fs := by
  simp only [CmdInstaller.installFirmware, PosInstaller.installFirmware, h]

theorem filesStage_eq (fs : FS) (ov rt : Fpath)
    (h : fsFind fs (ov ++ [ "artifacts", "files" ]) = none) :
    CmdInstaller.installConfigFiles ov rt fs =
      PosInstaller.installConfigFiles ov rt fs := by
  simp only [CmdInstaller.installConfigFiles,
    PosInstaller.installConfigFiles, h]

/-! ## Claim C2: observable equivalence of the three variants -/

/-- Concrete overlay for the C2 counterexample: legacy kernel-modules and
firmware directories are staged empty, config files and an
artifacts-layout kernel module exist. -/
def c2fs : FS :=
  [ ([ "ov" ], .dir 0o755), ([ "ov", "install" ], .dir 0o755),
    ([ "ov", "install", "kernel-modules" ], .dir 0o755),
    ([ "ov", "install", "firmware" ], .dir 0o755),
    ([ "ov", "files" ], .dir 0o755), ([ "ov", "files", "etc" ], .dir 0o755),
    ([ "ov", "files", "etc", "x.conf" ], .file 0o644 "cfg"),
    ([ "ov", "artifacts" ], .dir 0o755),
    ([ "ov", "artifacts", "install" ], .dir 0o755),
    ([ "ov", "artifacts", "install", "kernel-modules" ], .dir 0o755),
    ([ "ov", "artifacts", "install", "kernel-modules", "b.ko" ], .file 0o644 "B"),
    ([ "root" ], .dir 0o755) ]

/-- C2: counterexample.  On the same staged overlay and target, the three
variants do not produce the same filesystem effect: the command-dispatch
variant installs the artifacts-layout module `b.ko` and the config file;
the positional variant (which never looks under `artifacts/`) installs
neither `b.ko`; and the plugin variant writes nothing at all. -/
theorem c2_counterexample :
    fsFind (CmdInstaller.install (some optsEx) [ "ov", "installers", "bin" ] c2fs).1
      [ "root", "lib", "modules", "b.ko" ] = some (.file 0o644 "B") ∧
    fsFind (PosInstaller.main [ [ "prog" ], [ "ov" ], [ "root" ] ] c2fs).1
      [ "root", "lib", "modules", "b.ko" ] = none ∧
    (PosInstaller.main [ [ "prog" ], [ "ov" ], [ "root" ] ] c2fs).2 = none ∧
    (PluginInstaller.Installer.Install ⟨ [ "ov" ] ⟩ ⟨ [ "root" ] ⟩ c2fs).1 = c2fs ∧
    fsFind (CmdInstaller.install (some optsEx) [ "ov", "installers", "bin" ] c2fs).1
      [ "root", "etc", "x.conf" ] = some (.file 0o644 "cfg") := by
  decide

/-- C2 (amended): the command-dispatch and positional CLI variants produce
the same observable filesystem effect for equivalent inputs whenever the
overlay root holds no `artifacts/`-layout candidates (and the overlay and
target roots are unrelated paths); the plugin-interface variant never
modifies the filesystem at all, because its copy stages are unimplemented
stubs. -/
theorem c2_amended (fs : FS) (opts : InstallOptions) (exe args0 : Fpath)
    (i : PluginInstaller.Installer) (o : PluginInstaller.InstallerOptions) :
    (fsFind fs (exe.dropLast.dropLast ++ [ "artifacts", "install", "kernel-modules" ]) = none →
     fsFind fs (exe.dropLast.dropLast ++ [ "artifacts", "install", "firmware" ]) = none →
     fsFind fs (exe.dropLast.dropLast ++ [ "artifacts", "files" ]) = none →
     ¬ exe.dropLast.dropLast <+: opts.mountPrefix →
     ¬ opts.mountPrefix <+: exe.dropLast.dropLast →
     CmdInstaller.install (some opts) exe fs =
       PosInstaller.main [ args0, exe.dropLast.dropLast, opts.mountPrefix ] fs) ∧
    (PluginInstaller.Installer.Install i o fs).1 = fs := by
  constructor
  · intro h1 h2 h3 hA hB
    simp only [CmdInstaller.install, PosInstaller.main]
    rw [kmStage_eq fs _ _ h1]
    cases hkm : PosInstaller.installKernelModules exe.dropLast.dropLast
        opts.mountPrefix fs with
    | mk fs1 e1 =>
      cases e1 with
      | some e => rfl
      | none =>
        dsimp only
        have h2' : fsFind fs1
            (exe.dropLast.dropLast ++ [ "artifacts", "install", "firmware" ]) = none := by
          rw [posKM_frame hkm (ovExt_unrelated hA hB _).1 (ovExt_unrelated hA hB _).2]
          exact h2
        rw [fwStage_eq fs1 _ _ h2']
        cases hfw : PosInstaller.installFirmware exe.dropLast.dropLast
            opts.mountPrefix fs1 with
        | mk fs2 e2 =>
          cases e2 with
          | some e => rfl
          | none =>
            dsimp only
            have h3' : fsFind fs2
                (exe.dropLast.dropLast ++ [ "artifacts", "files" ]) = none := by
              rw [posFW_frame hfw (ovExt_unrelated hA hB _).1 (ovExt_unrelated hA hB _).2]
              rw [posKM_frame hkm (ovExt_unrelated hA hB _).1 (ovExt_unrelated hA hB _).2]
              exact h3
            rw [filesStage_eq fs2 _ _ h3']
  · simp only [PluginInstaller.Installer.Install,
      PluginInstaller.Installer.installKernelModules,
      PluginInstaller.Installer.installFirmware,
      PluginInstaller.Installer.installConfigFiles,
      PluginInstaller.Installer.configureBootParams]
    cases hk : fsFind fs (i.overlayPath ++ [ "install", "kernel-modules" ]) <;>
      cases hf : fsFind fs (i.overlayPath ++ [ "install", "firmware" ]) <;>
        cases hc : fsFind fs (i.overlayPath ++ [ "files" ]) <;>
          simp [hk, hf, hc]

/-- C2 (amended) witness: on a legacy-only overlay the command-dispatch and
positional variants agree end to end. -/
theorem c2_amended_witness :
    CmdInstaller.install (some optsEx) [ "ov", "installers", "bin" ] c3legacyFs =
      PosInstaller.main [ [ "prog" ], [ "ov" ], [ "root" ] ] c3legacyFs :=
  (c2_amended c3legacyFs optsEx [ "ov", "installers", "bin" ] [ "prog" ]
    ⟨ [ "ov" ] ⟩ ⟨ [ "root" ] ⟩).1 (by decide) (by decide) (by decide)
    (by decide) (by decide)

/-! ## Specification lemmas for mkdirAll, towards the copy postcondition -/

theorem fsDirAt_iff (fs : FS) (p : Fpath) :
    fsDirAt fs p = true ↔ p = [] ∨ ∃ m, fsFind fs p = some (.dir m) := by
  cases p with
  | nil => simp [fsDirAt]
  | cons a t =>
    simp only [fsDirAt]
    cases h : fsFind fs (a :: t) with
    | none => simp
    | some n => cases n <;> simp

theorem not_self_prefix_dropLast {p : Fpath} (hne : p ≠ []) :
    ¬ p <+: p.dropLast := by
  intro h
  have h1 := h.length_le
  rw [List.length_dropLast] at h1
  have h2 : 0 < p.length := List.length_pos.mpr hne
  omega

theorem mkdirAll_of_dirAt {fs : FS} {p : Fpath} (mode : Nat)
    (h : fsDirAt fs p = true) : mkdirAll fs p mode = .ok fs := by
  rcases (fsDirAt_iff fs p).mp h with hnil | ⟨m, hm⟩
  · subst hnil
    rfl
  · cases p with
    | nil => rfl
    | cons a t =>
      show mkdirAllGo mode (t.length + 1) fs (a :: t) = .ok fs
      simp only [mkdirAllGo, hm]

theorem mkdirAll_step {fs : FS} {r : Fpath} (mode : Nat) (hne : r ≠ [])
    (hnone : fsFind fs r = none) (hpar : fsDirAt fs r.dropLast = true) :
    mkdirAll fs r mode = .ok (fsSet fs r (.dir mode)) := by
  cases r with
  | nil => exact absurd rfl hne
  | cons a t =>
    show mkdirAllGo mode (t.length + 1) fs (a :: t) = .ok _
    simp only [mkdirAllGo, hnone]
    have hrec : mkdirAllGo mode t.length fs (a :: t).dropLast = .ok fs := by
      have := @mkdirAll_of_dirAt fs (a :: t).dropLast mode hpar
      simpa [mkdirAll, List.length_dropLast] using this
    rw [hrec]

theorem mkdirAllGo_mono_some (mode : Nat) :
    ∀ (fuel : Nat) (fs : FS) (p : Fpath) (fs' : FS),
      mkdirAllGo mode fuel fs p = .ok fs' →
      ∀ (q : Fpath) (v : Node), fsFind fs q = some v → fsFind fs' q = some v := by
  intro fuel
  induction fuel with
  | zero =>
    intro fs p fs' hok q v hv
    cases p with
    | nil => cases hok; exact hv
    | cons a t => cases hok; exact hv
  | succ f ih =>
    intro fs p fs' hok q v hv
    cases p with
    | nil => cases hok; exact hv
    | cons a t =>
      simp only [mkdirAllGo] at hok
      cases hfind : fsFind fs (a :: t) with
      | some n =>
        cases n with
        | dir m => rw [hfind] at hok; cases hok; exact hv
        | file m c => rw [hfind] at hok; cases hok
      | none =>
        rw [hfind] at hok
        cases hrec : mkdirAllGo mode f fs (a :: t).dropLast with
        | error e => rw [hrec] at hok; cases hok
        | ok fs1 =>
          rw [hrec] at hok
          cases hok
          have hv1 : fsFind fs1 q = some v := ih fs (a :: t).dropLast fs1 hrec q v hv
          have hqp : q ≠ a :: t := by
            intro hh
            rw [hh] at hv
            rw [hv] at hfind
            cases hfind
          rw [fsFind_fsSet_ne fs1 (a :: t) _ q hqp]
          exact hv1

theorem mkdirAll_mono_some {fs : FS} {p : Fpath} {mode : Nat} {fs' : FS}
    (hok : mkdirAll fs p mode = .ok fs')
    {q : Fpath} {v : Node} (hv : fsFind fs q = some v) : fsFind fs' q = some v :=
  mkdirAllGo_mono_some mode p.length fs p fs' hok q v hv

/-- No regular file sits at `p` or any ancestor of `p` (so `MkdirAll` can
succeed), phrased decidably over the finitely many prefixes. -/
def clearToB (fs : FS) (p : Fpath) : Bool :=
  (List.range (p.length + 1)).all (fun i =>
    match fsFind fs (p.take i) with
    | some (.file _ _) => false
    | _ => true)

theorem clearToB_spec {fs : FS} {p : Fpath} (h : clearToB fs p = true)
    {q : Fpath} (hq : q <+: p) (mm : Nat) (cc : String) :
    fsFind fs q ≠ some (.file mm cc) := by
  intro hfile
  have hq' : q = p.take q.length := List.prefix_iff_eq_take.mp hq
  have hle : q.length ≤ p.length := hq.length_le
  have hmem : q.length ∈ List.range (p.length + 1) := List.mem_range.mpr (by omega)
  have := List.all_eq_true.mp h _ hmem
  rw [← hq', hfile] at this
  simp at this

theorem clearToB_of_prefix {fs : FS} {p q : Fpath} (h : clearToB fs p = true)
    (hq : q <+: p) : clearToB fs q = true := by
  rw [clearToB, List.all_eq_true]
  intro i hi
  rw [List.mem_range] at hi
  have htake : q.take i <+: p := (List.take_prefix i q).trans hq
  cases hfind : fsFind fs (q.take i) with
  | none => simp
  | some n =>
    cases n with
    | dir m => simp
    | file m c => exact absurd hfind (clearToB_spec h htake m c)

theorem mkdirAllGo_ok_of_clear (mode : Nat) :
    ∀ (fuel : Nat) (fs : FS) (p : Fpath), fuel = p.length →
      (∀ q : Fpath, q <+: p → ∀ mm cc, fsFind fs q ≠ some (.file mm cc)) →
      ∃ fs', mkdirAllGo mode fuel fs p = .ok fs' ∧
        fsDirAt fs' p = true ∧
        (p ≠ [] → fsFind fs p = none → fsFind fs' p = some (.dir mode)) := by
  intro fuel
  induction fuel with
  | zero =>
    intro fs p hlen _
    cases p with
    | nil => exact ⟨fs, rfl, rfl, fun h => absurd rfl h⟩
    | cons a t => simp at hlen
  | succ f ih =>
    intro fs p hlen hclear
    cases p with
    | nil => simp at hlen
    | cons a t =>
      cases hfind : fsFind fs (a :: t) with
      | some n =>
        cases n with
        | dir m =>
          refine ⟨fs, ?_, ?_, ?_⟩
          · simp only [mkdirAllGo, hfind]
          · simp [fsDirAt, hfind]
          · intro _ h; cases h
        | file m c => exact absurd hfind (hclear _ List.prefix_rfl m c)
      | none =>
        have hlen' : f = (a :: t).dropLast.length := by
          rw [List.length_dropLast]
          simp only [List.length_cons] at hlen ⊢
          omega
        have hclear' : ∀ q : Fpath, q <+: (a :: t).dropLast →
            ∀ mm cc, fsFind fs q ≠ some (.file mm cc) :=
          fun q hq mm cc => hclear q (prefix_of_prefix_dropLast hq) mm cc
        obtain ⟨fs1, hok1, _, _⟩ := ih fs (a :: t).dropLast hlen' hclear'
        refine ⟨fsSet fs1 (a :: t) (.dir mode), ?_, ?_, ?_⟩
        · simp only [mkdirAllGo, hfind, hok1]
        · simp [fsDirAt, fsFind_fsSet_self]
        · intro _ _
          exact fsFind_fsSet_self fs1 (a :: t) (.dir mode)

theorem mkdirAll_ok_of_clear {fs : FS} {p : Fpath} (mode : Nat)
    (h : clearToB fs p = true) :
    ∃ fs', mkdirAll fs p mode = .ok fs' ∧
      fsDirAt fs' p = true ∧
      (p ≠ [] → fsFind fs p = none → fsFind fs' p = some (.dir mode)) :=
  mkdirAllGo_ok_of_clear mode p.length fs p rfl
    (fun _ hq mm cc => clearToB_spec h hq mm cc)

/-! ## Well-formed walk sequences and the fresh-destination copy theorem -/

theorem prefix_antisymm {a b : Fpath} (h1 : a <+: b) (h2 : b <+: a) : a = b :=
  h1.sublist.eq_of_length (Nat.le_antisymm h1.length_le h2.length_le)

/-- Structural well-formedness of a walk sequence with respect to the
filesystem it was taken from: every visited path extends the walk root and
agrees with the filesystem, no path repeats, the root comes first, and
every non-root entry's parent directory was visited earlier. -/
def walkOKAux (fs0 : FS) (src : Fpath) :
    List Fpath → List Fpath → List (Fpath × Node) → Bool
  | _, _, [] => true
  | seenDirs, seenAll, (p, n) :: rest =>
    src.isPrefixOf p &&
    (!(decide (p ∈ seenAll)) &&
     (((decide (seenAll = []) && decide (p = src)) ||
        decide (p.dropLast ∈ seenDirs)) &&
      (decide (fsFind fs0 p = some n) &&
       walkOKAux fs0 src
         (match n with | .dir _ => p :: seenDirs | .file _ _ => seenDirs)
         (p :: seenAll) rest)))

/-- Well-formedness of a complete walk sequence. -/
def walkOK (fs0 : FS) (src : Fpath) (items : List (Fpath × Node)) : Bool :=
  walkOKAux fs0 src [] [] items

/-- Decidable statement that nothing exists at or below `dst`. -/
def freshB (fs : FS) (dst : Fpath) : Bool :=
  fs.all (fun e => !(dst.isPrefixOf e.1))

theorem fsFind_some_key {fs : FS} {q : Fpath} {v : Node}
    (h : fsFind fs q = some v) : ∃ e, e ∈ fs ∧ e.1 = q := by
  induction fs with
  | nil => cases h
  | cons e rest ih =>
    by_cases he : e.1 = q
    · exact ⟨e, List.mem_cons_self e rest, he⟩
    · simp only [fsFind, he, if_false] at h
      obtain ⟨e', he1, he2⟩ := ih h
      exact ⟨e', List.mem_cons_of_mem e he1, he2⟩

theorem freshB_spec {fs : FS} {dst : Fpath} (h : freshB fs dst = true)
    {q : Fpath} (hq : dst <+: q) : fsFind fs q = none := by
  cases hfind : fsFind fs q with
  | none => rfl
  | some v =>
    obtain ⟨e, hmem, hkey⟩ := fsFind_some_key hfind
    have := List.all_eq_true.mp h e hmem
    rw [hkey] at this
    simp only [Bool.not_eq_true', ← Bool.not_eq_true] at this
    exact absurd (List.isPrefixOf_iff_prefix.mpr hq) this

/-- Main lemma for the fresh-destination copy: folding the walk function
over a well-formed walk sequence into an initially empty destination
subtree succeeds and replicates every walked node (mode bits included) at
its relative destination path, while never disturbing existing entries. -/
theorem copyItems_fresh (fs0 : FS) (src dst : Fpath) (hdst : dst ≠ []) :
    ∀ (items : List (Fpath × Node)) (seenDirs seenAll : List Fpath) (fs : FS),
      walkOKAux fs0 src seenDirs seenAll items = true →
      (∀ q v, fsFind fs0 q = some v → fsFind fs q = some v) →
      (∀ p, p ∈ seenDirs → p ∈ seenAll) →
      (∀ p, p ∈ seenDirs →
        src <+: p ∧ fsDirAt fs (dst ++ p.drop src.length) = true) →
      (∀ p, p ∈ seenAll → src <+: p) →
      (∀ q, dst <+: q → (∀ p, p ∈ seenAll → q ≠ dst ++ p.drop src.length) →
        fsFind fs q = none) →
      (seenAll = [] → clearToB fs dst = true) →
      ∃ fs', copyItems fs src dst items = (fs', none) ∧
        (∀ pr, pr ∈ items → fsFind fs' (dst ++ pr.1.drop src.length) = some pr.2) ∧
        (∀ q v, fsFind fs q = some v → fsFind fs' q = some v) := by
  intro items
  induction items with
  | nil =>
    intro seenDirs seenAll fs _ _ _ _ _ _ _
    exact ⟨fs, rfl, by simp, fun _ _ h => h⟩
  | cons it rest ih =>
    rintro seenDirs seenAll fs hOK hmono hsub hseenD hseenA hfresh hclear
    obtain ⟨p, n⟩ := it
    simp only [walkOKAux, Bool.and_eq_true, Bool.or_eq_true,
      decide_eq_true_eq, Bool.not_eq_true', decide_eq_false_iff_not,
      List.isPrefixOf_iff_prefix] at hOK
    obtain ⟨hpre, hnot, hpar, hfind0, hrest⟩ := hOK
    obtain ⟨rel, rfl⟩ := hpre
    have hdrop : (src ++ rel).drop src.length = rel := List.drop_left src rel
    -- The destination path of this entry is fresh.
    have hdfresh : fsFind fs (dst ++ rel) = none := by
      refine hfresh (dst ++ rel) (List.prefix_append dst rel) ?_
      intro p' hp' heq
      obtain ⟨rel', rfl⟩ := hseenA p' hp'
      rw [List.drop_left] at heq
      have : rel = rel' := List.append_cancel_left heq
      subst this
      exact hnot hp'
    -- Parent analysis: the entry is either the root (first) or has a
    -- previously visited parent directory.
    cases n with
    | dir m =>
      rcases hpar with ⟨hempty, hroot⟩ | hparent
      · -- root directory entry, first in the walk
        have hrel : rel = [] := by
          have : src ++ rel = src ++ [] := by simpa using hroot
          exact List.append_cancel_left this
        subst hrel
        obtain ⟨fs1, hok, hdirAt1, hcreate⟩ :=
          @mkdirAll_ok_of_clear fs dst m (hclear hempty)
        have hd1 : fsFind fs1 dst = some (.dir m) :=
          hcreate hdst (by simpa using hdfresh)
        have hstep : walkStep fs src dst (src ++ []) (.dir m) = (fs1, none) := by
          simp only [walkStep, List.append_nil, List.drop_length, hok]
        have hmono1 : ∀ q v, fsFind fs q = some v → fsFind fs1 q = some v :=
          fun q v hv => mkdirAll_mono_some hok hv
        obtain ⟨fs', hcopy, hitems, hmono'⟩ :=
          ih ((src ++ []) :: seenDirs) ((src ++ []) :: seenAll) fs1 hrest
            (fun q v hv => hmono1 q v (hmono q v hv))
            (by
              intro p' hp'
              rcases List.mem_cons.mp hp' with h | h
              · exact h ▸ List.mem_cons_self _ _
              · exact List.mem_cons_of_mem _ (hsub p' h))
            (by
              intro p' hp'
              rcases List.mem_cons.mp hp' with h | h
              · subst h
                refine ⟨List.prefix_append src [], ?_⟩
                rw [List.drop_left, List.append_nil]
                simp [fsDirAt_iff]
                right
                exact ⟨m, hd1⟩
              · obtain ⟨hpre', hdir'⟩ := hseenD p' h
                refine ⟨hpre', ?_⟩
                rcases (fsDirAt_iff fs _).mp hdir' with hq | ⟨m', hm'⟩
                · rw [hq]
                  rfl
                · exact (fsDirAt_iff fs1 _).mpr (Or.inr ⟨m', hmono1 _ _ hm'⟩))
            (by
              intro p' hp'
              rcases List.mem_cons.mp hp' with h | h
              · exact h ▸ List.prefix_append src []
              · exact hseenA p' h)
            (by
              intro q hq hne
              have hq1 : q ≠ dst := by
                intro hh
                exact hne (src ++ []) (List.mem_cons_self _ _)
                  (by rw [List.drop_left, List.append_nil, hh])
              have : fsFind fs1 q = fsFind fs q := by
                refine mkdirAll_frame hok ?_
                intro hpref
                exact hq1 (prefix_antisymm hpref hq)
              rw [this]
              exact hfresh q hq (fun p' hp' =>
                hne p' (List.mem_cons_of_mem _ hp'))
            )
            (fun h => absurd h (List.cons_ne_nil _ _))
        refine ⟨fs', ?_, ?_, fun q v hv => hmono' q v (hmono1 q v hv)⟩
        · simp only [copyItems, hstep, hcopy]
        · intro pr hpr
          rcases List.mem_cons.mp hpr with h | h
          · subst h
            rw [List.drop_left, List.append_nil]
            exact hmono' dst _ hd1
          · exact hitems pr h
      · -- non-root directory entry: parent directory already created
        obtain ⟨hpp, hpdir⟩ := hseenD _ hparent
        have hrelne : rel ≠ [] := by
          intro hh
          subst hh
          rw [List.append_nil] at hparent
          by_cases hsrc : src = []
          · subst hsrc
            exact hnot (hsub [] (by simpa using hparent))
          · rw [List.append_nil] at hpp
            have := hpp.length_le
            rw [List.length_dropLast] at this
            have h2 : 0 < src.length := List.length_pos.mpr hsrc
            omega
        have hdl : (src ++ rel).dropLast = src ++ rel.dropLast :=
          List.dropLast_append_of_ne_nil src hrelne
        have hpdir' : fsDirAt fs (dst ++ rel.dropLast) = true := by
          rw [hdl, List.drop_left] at hpdir
          exact hpdir
        have hdne : dst ++ rel ≠ [] :=
          List.append_ne_nil_of_left_ne_nil hdst rel
        have hddl : (dst ++ rel).dropLast = dst ++ rel.dropLast :=
          List.dropLast_append_of_ne_nil dst hrelne
        have hok : mkdirAll fs (dst ++ rel) m =
            .ok (fsSet fs (dst ++ rel) (.dir m)) :=
          mkdirAll_step m hdne hdfresh (by rw [hddl]; exact hpdir')
        have hstep : walkStep fs src dst (src ++ rel) (.dir m) =
            (fsSet fs (dst ++ rel) (.dir m), none) := by
          simp only [walkStep, List.drop_left, hok]
        have hmono1 : ∀ q v, fsFind fs q = some v →
            fsFind (fsSet fs (dst ++ rel) (.dir m)) q = some v := by
          intro q v hv
          have hqne : q ≠ dst ++ rel := by
            intro hh
            rw [hh, hdfresh] at hv
            cases hv
          rw [fsFind_fsSet_ne fs _ _ q hqne]
          exact hv
        obtain ⟨fs', hcopy, hitems, hmono'⟩ :=
          ih ((src ++ rel) :: seenDirs) ((src ++ rel) :: seenAll)
            (fsSet fs (dst ++ rel) (.dir m)) hrest
            (fun q v hv => hmono1 q v (hmono q v hv))
            (by
              intro p' hp'
              rcases List.mem_cons.mp hp' with h | h
              · exact h ▸ List.mem_cons_self _ _
              · exact List.mem_cons_of_mem _ (hsub p' h))
            (by
              intro p' hp'
              rcases List.mem_cons.mp hp' with h | h
              · subst h
                refine ⟨List.prefix_append src rel, ?_⟩
                rw [List.drop_left]
                exact (fsDirAt_iff _ _).mpr
                  (Or.inr ⟨m, fsFind_fsSet_self fs (dst ++ rel) (.dir m)⟩)
              · obtain ⟨hpre', hdir'⟩ := hseenD p' h
                refine ⟨hpre', ?_⟩
                rcases (fsDirAt_iff fs _).mp hdir' with hq | ⟨m', hm'⟩
                · rw [hq]
                  rfl
                · exact (fsDirAt_iff _ _).mpr (Or.inr ⟨m', hmono1 _ _ hm'⟩))
            (by
              intro p' hp'
              rcases List.mem_cons.mp hp' with h | h
              · exact h ▸ List.prefix_append src rel
              · exact hseenA p' h)
            (by
              intro q hq hne
              have hq1 : q ≠ dst ++ rel := by
                intro hh
                exact hne (src ++ rel) (List.mem_cons_self _ _)
                  (by rw [List.drop_left, hh])
              rw [fsFind_fsSet_ne fs _ _ q hq1]
              exact hfresh q hq (fun p' hp' =>
                hne p' (List.mem_cons_of_mem _ hp')))
            (fun h => absurd h (List.cons_ne_nil _ _))
        refine ⟨fs', ?_, ?_, fun q v hv => hmono' q v (hmono1 q v hv)⟩
        · simp only [copyItems, hstep, hcopy]
        · intro pr hpr
          rcases List.mem_cons.mp hpr with h | h
          · subst h
            rw [List.drop_left]
            exact hmono' (dst ++ rel) _ (fsFind_fsSet_self fs (dst ++ rel) (.dir m))
          · exact hitems pr h
    | file m c =>
      have hsrcfind : fsFind fs (src ++ rel) = some (.file m c) :=
        hmono _ _ hfind0
      rcases hpar with ⟨hempty, hroot⟩ | hparent
      · -- root regular-file entry, first in the walk
        have hrel : rel = [] := by
          have : src ++ rel = src ++ [] := by simpa using hroot
          exact List.append_cancel_left this
        subst hrel
        have hclear' : clearToB fs dst.dropLast = true :=
          clearToB_of_prefix (hclear hempty) (List.dropLast_prefix dst)
        obtain ⟨fs1, hok, hdirAt1, _⟩ :=
          @mkdirAll_ok_of_clear fs dst.dropLast 0o755 hclear'
        have hnotpref : ¬ dst <+: dst.dropLast := not_self_prefix_dropLast hdst
        have hfs1dst : fsFind fs1 dst = none := by
          rw [mkdirAll_frame hok hnotpref]
          simpa using hdfresh
        have hsrc1 : fsFind fs1 src = some (.file m c) := by
          have := mkdirAll_mono_some hok hsrcfind
          simpa using this
        have hcp : copyFile fs1 src dst m =
            .ok (fsSet fs1 dst (.file m c)) := by
          simp only [copyFile, hsrc1, hfs1dst, hdirAt1, if_true]
        have hstep : walkStep fs src dst (src ++ []) (.file m c) =
            (fsSet fs1 dst (.file m c), none) := by
          simp only [walkStep, List.append_nil, List.drop_length, hok, hcp]
        have hmono1 : ∀ q v, fsFind fs q = some v →
            fsFind (fsSet fs1 dst (.file m c)) q = some v := by
          intro q v hv
          have hqne : q ≠ dst := by
            intro hh
            rw [hh] at hv
            have hd : fsFind fs dst = none := by simpa using hdfresh
            rw [hd] at hv
            cases hv
          rw [fsFind_fsSet_ne fs1 _ _ q hqne]
          exact mkdirAll_mono_some hok hv
        obtain ⟨fs', hcopy, hitems, hmono'⟩ :=
          ih seenDirs ((src ++ []) :: seenAll) (fsSet fs1 dst (.file m c)) hrest
            (fun q v hv => hmono1 q v (hmono q v hv))
            (fun p' hp' => List.mem_cons_of_mem _ (hsub p' hp'))
            (by
              intro p' hp'
              obtain ⟨hpre', hdir'⟩ := hseenD p' hp'
              refine ⟨hpre', ?_⟩
              rcases (fsDirAt_iff fs _).mp hdir' with hq | ⟨m', hm'⟩
              · rw [hq]
                rfl
              · exact (fsDirAt_iff _ _).mpr (Or.inr ⟨m', hmono1 _ _ hm'⟩))
            (by
              intro p' hp'
              rcases List.mem_cons.mp hp' with h | h
              · exact h ▸ List.prefix_append src []
              · exact hseenA p' h)
            (by
              intro q hq hne
              have hq1 : q ≠ dst := by
                intro hh
                exact hne (src ++ []) (List.mem_cons_self _ _)
                  (by rw [List.drop_left, List.append_nil, hh])
              rw [fsFind_fsSet_ne fs1 _ _ q hq1]
              have : fsFind fs1 q = fsFind fs q := by
                refine mkdirAll_frame hok ?_
                intro hpref
                exact hq1 (prefix_antisymm ((prefix_of_prefix_dropLast hpref)) hq)
              rw [this]
              exact hfresh q hq (fun p' hp' =>
                hne p' (List.mem_cons_of_mem _ hp')))
            (fun h => absurd h (List.cons_ne_nil _ _))
        refine ⟨fs', ?_, ?_, fun q v hv => hmono' q v (hmono1 q v hv)⟩
        · simp only [copyItems, hstep, hcopy]
        · intro pr hpr
          rcases List.mem_cons.mp hpr with h | h
          · subst h
            rw [List.drop_left, List.append_nil]
            exact hmono' dst _ (fsFind_fsSet_self fs1 dst (.file m c))
          · exact hitems pr h
      · -- non-root regular file: parent directory already created
        obtain ⟨hpp, hpdir⟩ := hseenD _ hparent
        have hrelne : rel ≠ [] := by
          intro hh
          subst hh
          rw [List.append_nil] at hparent
          by_cases hsrc : src = []
          · subst hsrc
            exact hnot (hsub [] (by simpa using hparent))
          · rw [List.append_nil] at hpp
            have := hpp.length_le
            rw [List.length_dropLast] at this
            have h2 : 0 < src.length := List.length_pos.mpr hsrc
            omega
        have hdl : (src ++ rel).dropLast = src ++ rel.dropLast :=
          List.dropLast_append_of_ne_nil src hrelne
        have hpdir' : fsDirAt fs (dst ++ rel.dropLast) = true := by
          rw [hdl, List.drop_left] at hpdir
          exact hpdir
        have hddl : (dst ++ rel).dropLast = dst ++ rel.dropLast :=
          List.dropLast_append_of_ne_nil dst hrelne
        have hmk : mkdirAll fs (dst ++ rel).dropLast 0o755 = .ok fs :=
          mkdirAll_of_dirAt 0o755 (by rw [hddl]; exact hpdir')
        have hcp : copyFile fs (src ++ rel) (dst ++ rel) m =
            .ok (fsSet fs (dst ++ rel) (.file m c)) := by
          simp only [copyFile, hsrcfind, hdfresh]
          rw [hddl]
          simp only [hpdir', if_true]
        have hstep : walkStep fs src dst (src ++ rel) (.file m c) =
            (fsSet fs (dst ++ rel) (.file m c), none) := by
          simp only [walkStep, List.drop_left, hmk, hcp]
        have hmono1 : ∀ q v, fsFind fs q = some v →
            fsFind (fsSet fs (dst ++ rel) (.file m c)) q = some v := by
          intro q v hv
          have hqne : q ≠ dst ++ rel := by
            intro hh
            rw [hh, hdfresh] at hv
            cases hv
          rw [fsFind_fsSet_ne fs _ _ q hqne]
          exact hv
        obtain ⟨fs', hcopy, hitems, hmono'⟩ :=
          ih seenDirs ((src ++ rel) :: seenAll)
            (fsSet fs (dst ++ rel) (.file m c)) hrest
            (fun q v hv => hmono1 q v (hmono q v hv))
            (fun p' hp' => List.mem_cons_of_mem _ (hsub p' hp'))
            (by
              intro p' hp'
              obtain ⟨hpre', hdir'⟩ := hseenD p' hp'
              refine ⟨hpre', ?_⟩
              rcases (fsDirAt_iff fs _).mp hdir' with hq | ⟨m', hm'⟩
              · rw [hq]
                rfl
              · exact (fsDirAt_iff _ _).mpr (Or.inr ⟨m', hmono1 _ _ hm'⟩))
            (by
              intro p' hp'
              rcases List.mem_cons.mp hp' with h | h
              · exact h ▸ List.prefix_append src rel
              · exact hseenA p' h)
            (by
              intro q hq hne
              have hq1 : q ≠ dst ++ rel := by
                intro hh
                exact hne (src ++ rel) (List.mem_cons_self _ _)
                  (by rw [List.drop_left, hh])
              rw [fsFind_fsSet_ne fs _ _ q hq1]
              exact hfresh q hq (fun p' hp' =>
                hne p' (List.mem_cons_of_mem _ hp')))
            (fun h => absurd h (List.cons_ne_nil _ _))
        refine ⟨fs', ?_, ?_, fun q v hv => hmono' q v (hmono1 q v hv)⟩
        · simp only [copyItems, hstep, hcopy]
        · intro pr hpr
          rcases List.mem_cons.mp hpr with h | h
          · subst h
            rw [List.drop_left]
            exact hmono' (dst ++ rel) _
              (fsFind_fsSet_self fs (dst ++ rel) (.file m c))
          · exact hitems pr h

/-! ## Claim C5: the copy postcondition -/

/-- Concrete filesystem for the C5 counterexample: the destination is
pre-populated with a same-named file whose permission bits differ from the
source's. -/
def c5preFs : FS :=
  [ ([ "s" ], .dir 0o755), ([ "s", "a" ], .file 0o600 "hi"),
    ([ "d" ], .dir 0o755), ([ "d", "a" ], .file 0o644 "old") ]

/-- C5: counterexample.  The claim asserts that whenever
`copyDirectory(src, dst)` succeeds, every destination file's mode bits
equal the source file's.  Copying over a pre-populated destination
succeeds, replaces the content, but keeps the destination's old `0o644`
bits even though the source file has `0o600`. -/
theorem c5_counterexample :
    fsFind c5preFs [ "s", "a" ] = some (.file 0o600 "hi") ∧
    (copyDirectory c5preFs [ "s" ] [ "d" ]).2 = none ∧
    fsFind (copyDirectory c5preFs [ "s" ] [ "d" ]).1 [ "d", "a" ] =
      some (.file 0o644 "hi") ∧
    (0o644 : Nat) ≠ 0o600 := by
  decide

/-- C5 (amended): when the destination subtree is initially empty (nothing
at or below `dst`, and no regular file at `dst` or its ancestors) and the
walk of the source tree is well-formed, `copyDirectory` succeeds and every
walked node — regular files and directories alike, including empty
directories and the root — is replicated at its relative destination path
with exactly the source's mode bits (and, for files, the source's
content). -/
theorem c5_amended (fs : FS) (src dst : Fpath) (n : Node)
    (hdst : dst ≠ [])
    (hsrc : fsFind fs src = some n)
    (hwalk : walkOK fs src (fsWalkList fs src) = true)
    (hfresh : freshB fs dst = true)
    (hclear : clearToB fs dst = true) :
    ∃ fs', copyDirectory fs src dst = (fs', none) ∧
      ∀ pr, pr ∈ fsWalkList fs src →
        fsFind fs' (dst ++ pr.1.drop src.length) = some pr.2 := by
  obtain ⟨fs', hcopy, hitems, _⟩ :=
    copyItems_fresh fs src dst hdst (fsWalkList fs src) [] [] fs hwalk
      (fun _ _ hv => hv) (by simp) (by simp) (by simp)
      (fun q hq _ => freshB_spec hfresh hq)
      (fun _ => hclear)
  refine ⟨fs', ?_, hitems⟩
  simp only [copyDirectory, hsrc]
  exact hcopy

/-- Concrete source tree for the C5 witness: a root directory with one
regular file and one empty subdirectory, and no destination at all. -/
def c5srcFs : FS :=
  [ ([ "s" ], .dir 0o750), ([ "s", "a" ], .file 0o600 "hi"),
    ([ "s", "sub" ], .dir 0o700) ]

/-- C5 (amended) witness: the amended theorem applied to `c5srcFs` with the
fresh destination `d`. -/
theorem c5_amended_witness :
    ∃ fs', copyDirectory c5srcFs [ "s" ] [ "d" ] = (fs', none) ∧
      ∀ pr, pr ∈ fsWalkList c5srcFs [ "s" ] →
        fsFind fs' ([ "d" ] ++ pr.1.drop 1) = some pr.2 :=
  c5_amended c5srcFs [ "s" ] [ "d" ] (.dir 0o750) (by decide) (by decide)
    (by decide) (by decide) (by decide)

/-! ## The directory-listing order: totality, transitivity, antisymmetry -/

theorem lexLtB_trans : ∀ (a b c : List Char),
    lexLtB a b = true → lexLtB b c = true → lexLtB a c = true
  | [], [], _, h1, _ => by simp [lexLtB] at h1
  | [], _ :: _, [], _, h2 => by simp [lexLtB] at h2
  | [], _ :: _, _ :: _, _, _ => by simp [lexLtB]
  | _ :: _, [], _, h1, _ => by simp [lexLtB] at h1
  | _ :: _, _ :: _, [], _, h2 => by simp [lexLtB] at h2
  | a :: as, b :: bs, c :: cs, h1, h2 => by
    simp only [lexLtB, Bool.or_eq_true, Bool.and_eq_true, decide_eq_true_eq]
      at h1 h2 ⊢
    rcases h1 with h1 | ⟨hab, h1⟩
    · rcases h2 with h2 | ⟨hbc, h2⟩
      · exact Or.inl (lt_trans h1 h2)
      · exact Or.inl (hbc ▸ h1)
    · rcases h2 with h2 | ⟨hbc, h2⟩
      · exact Or.inl (hab ▸ h2)
      · exact Or.inr ⟨hab.trans hbc, lexLtB_trans as bs cs h1 h2⟩

theorem lexLtB_asymm : ∀ (a b : List Char),
    lexLtB a b = true → lexLtB b a = true → False
  | [], [], h1, _ => by simp [lexLtB] at h1
  | [], _ :: _, _, h2 => by simp [lexLtB] at h2
  | _ :: _, [], h1, _ => by simp [lexLtB] at h1
  | a :: as, b :: bs, h1, h2 => by
    simp only [lexLtB, Bool.or_eq_true, Bool.and_eq_true, decide_eq_true_eq]
      at h1 h2
    rcases h1 with h1 | ⟨hab, h1⟩
    · rcases h2 with h2 | ⟨hba, h2⟩
      · exact lt_asymm h1 h2
      · exact absurd (hba ▸ h1) (lt_irrefl b)
    · rcases h2 with h2 | ⟨_, h2⟩
      · exact absurd (hab ▸ h2) (lt_irrefl a)
      · exact lexLtB_asymm as bs h1 h2

theorem lexLtB_total : ∀ (a b : List Char), a ≠ b →
    lexLtB a b = true ∨ lexLtB b a = true
  | [], [], h => absurd rfl h
  | [], _ :: _, _ => Or.inl (by simp [lexLtB])
  | _ :: _, [], _ => Or.inr (by simp [lexLtB])
  | a :: as, b :: bs, h => by
    simp only [lexLtB, Bool.or_eq_true, Bool.and_eq_true, decide_eq_true_eq]
    rcases lt_trichotomy a b with hlt | heq | hgt
    · exact Or.inl (Or.inl hlt)
    · subst heq
      have hne : as ≠ bs := fun hh => h (hh ▸ rfl)
      rcases lexLtB_total as bs hne with h1 | h1
      · exact Or.inl (Or.inr ⟨rfl, h1⟩)
      · exact Or.inr (Or.inr ⟨rfl, h1⟩)
    · exact Or.inr (Or.inl hgt)

theorem string_eq_of_data {a b : String} (h : a.data = b.data) : a = b :=
  String.ext h

instance : IsTrans String (fun a b => strLeB a b = true) := by
  constructor
  intro a b c h1 h2
  simp only [strLeB, Bool.or_eq_true, decide_eq_true_eq] at h1 h2 ⊢
  rcases h1 with h1 | h1
  · exact h1 ▸ h2
  · rcases h2 with h2 | h2
    · exact Or.inr (h2 ▸ h1)
    · exact Or.inr (lexLtB_trans _ _ _ h1 h2)

instance : IsAntisymm String (fun a b => strLeB a b = true) := by
  constructor
  intro a b h1 h2
  simp only [strLeB, Bool.or_eq_true, decide_eq_true_eq] at h1 h2
  rcases h1 with h1 | h1
  · exact h1
  · rcases h2 with h2 | h2
    · exact h2.symm
    · exact (lexLtB_asymm _ _ h1 h2).elim

instance : IsTotal String (fun a b => strLeB a b = true) := by
  constructor
  intro a b
  simp only [strLeB, Bool.or_eq_true, decide_eq_true_eq]
  by_cases h : a = b
  · exact Or.inl (Or.inl h)
  · have hd : a.data ≠ b.data := fun hh => h (string_eq_of_data hh)
    rcases lexLtB_total a.data b.data hd with h1 | h1
    · exact Or.inl (Or.inr h1)
    · exact Or.inr (Or.inr h1)

/-! ## The walk sequence depends only on the source subtree -/

theorem namesUnder_lemma {l p : Fpath} {a : String} :
    ((if l.dropLast = p && !l.isEmpty then some (l.getLastD "") else none) =
      some a) ↔ l = p ++ [ a ] := by
  constructor
  · intro h
    by_cases hc : l.dropLast = p ∧ l ≠ []
    · obtain ⟨h1, h2⟩ := hc
      rw [if_pos (by simp [h1, h2])] at h
      cases h
      conv_lhs => rw [← List.dropLast_concat_getLast h2]
      rw [h1]
      congr 1
      rw [List.getLastD_eq_getLast? , List.getLast?_eq_getLast l h2]
      rfl
    · rw [if_neg (by
        simp only [Bool.and_eq_true, decide_eq_true_eq, Bool.not_eq_true',
          List.isEmpty_eq_false_iff_exists_mem]
        intro hcon
        apply hc
        refine ⟨hcon.1, ?_⟩
        obtain ⟨x, hx⟩ := hcon.2
        intro hl
        rw [hl] at hx
        cases hx)] at h
      cases h
  · intro h
    subst h
    simp [List.dropLast_concat, List.getLastD_concat]

theorem mem_namesUnder {fs : FS} {p : Fpath} {a : String} :
    a ∈ namesUnder fs p ↔ ∃ e, e ∈ fs ∧ e.1 = p ++ [ a ] := by
  simp only [namesUnder, List.mem_filterMap]
  constructor
  · rintro ⟨e, he, hf⟩
    exact ⟨e, he, namesUnder_lemma.mp hf⟩
  · rintro ⟨e, he, hf⟩
    exact ⟨e, he, namesUnder_lemma.mpr hf⟩

theorem fsFind_ne_none_iff_key {fs : FS} {q : Fpath} :
    fsFind fs q ≠ none ↔ ∃ e, e ∈ fs ∧ e.1 = q := by
  constructor
  · intro h
    cases hf : fsFind fs q with
    | none => exact absurd hf h
    | some v => exact fsFind_some_key hf
  · intro ⟨e, he, hkey⟩
    induction fs with
    | nil => cases he
    | cons f rest ih =>
      by_cases hh : f.1 = q
      · simp [fsFind, hh]
      · rcases List.mem_cons.mp he with h1 | h1
        · exact absurd (h1 ▸ hkey) hh
        · simp only [fsFind, hh, if_false]
          exact ih h1

theorem mem_namesUnder_find {fs : FS} {p : Fpath} {a : String} :
    a ∈ namesUnder fs p ↔ fsFind fs (p ++ [ a ]) ≠ none := by
  rw [mem_namesUnder, ← fsFind_ne_none_iff_key]

/-- Two filesystems with the same stat results under `p` list the same
sorted child names at `p`. -/
theorem childNames_congr {fs1 fs : FS} {p : Fpath}
    (h : ∀ a : String, fsFind fs1 (p ++ [ a ]) = fsFind fs (p ++ [ a ])) :
    childNames fs1 p = childNames fs p := by
  have hmem : ∀ a, a ∈ (namesUnder fs1 p).dedup ↔ a ∈ (namesUnder fs p).dedup := by
    intro a
    rw [List.mem_dedup, List.mem_dedup, mem_namesUnder_find, mem_namesUnder_find, h a]
  have hperm : List.Perm (namesUnder fs1 p).dedup (namesUnder fs p).dedup := by
    refine List.perm_of_nodup_nodup_toFinset_eq (List.nodup_dedup _)
      (List.nodup_dedup _) ?_
    ext a
    simp only [List.mem_toFinset]
    exact hmem a
  refine List.eq_of_perm_of_sorted ?_ (List.sorted_insertionSort _ _)
    (List.sorted_insertionSort _ _)
  exact (List.perm_insertionSort _ _).trans
    (hperm.trans (List.perm_insertionSort _ _).symm)

/-- All entries at or below `p` have length at most `p.length + f`, so fuel
`f` suffices to walk the subtree at `p`. -/
def okFuel (fs : FS) (p : Fpath) (f : Nat) : Prop :=
  ∀ q : Fpath, p <+: q → fsFind fs q ≠ none → q.length ≤ p.length + f

theorem key_length_le_maxLen {fs : FS} {e : Fpath × Node} (he : e ∈ fs) :
    e.1.length ≤ fsMaxLen fs := by
  induction fs with
  | nil => cases he
  | cons f rest ih =>
    have hstep : fsMaxLen (f :: rest) = max f.1.length (fsMaxLen rest) := rfl
    rcases List.mem_cons.mp he with h | h
    · rw [hstep, h]
      exact Nat.le_max_left _ _
    · rw [hstep]
      exact (ih h).trans (Nat.le_max_right _ _)

theorem fsFind_length_le_maxLen {fs : FS} {q : Fpath} {v : Node}
    (h : fsFind fs q = some v) : q.length ≤ fsMaxLen fs := by
  obtain ⟨e, he, hkey⟩ := fsFind_some_key h
  rw [← hkey]
  exact key_length_le_maxLen he

theorem okFuel_max (fs : FS) (p : Fpath) : okFuel fs p (fsMaxLen fs + 1) := by
  intro q _ hne
  cases hf : fsFind fs q with
  | none => exact absurd hf hne
  | some v =>
    have := fsFind_length_le_maxLen hf
    omega

theorem okFuel_child {fs : FS} {p : Fpath} {f : Nat} (name : String)
    (h : okFuel fs p (f + 1)) : okFuel fs (p ++ [ name ]) f := by
  intro q hq hne
  have hq' : p <+: q := (List.prefix_append p [ name ]).trans hq
  have := h q hq' hne
  rw [List.length_append]
  simp only [List.length_cons, List.length_nil] at *
  omega

theorem childNames_nil_of_none {fs : FS} {p : Fpath}
    (h : ∀ a, fsFind fs (p ++ [ a ]) = none) : childNames fs p = [] := by
  have hd : (namesUnder fs p).dedup = [] := by
    refine List.eq_nil_iff_forall_not_mem.mpr ?_
    intro a ha
    exact absurd (h a) (mem_namesUnder_find.mp (List.mem_dedup.mp ha))
  rw [childNames, hd]
  rfl

theorem okFuel_zero_no_child {fs : FS} {p : Fpath} (h : okFuel fs p 0)
    (a : String) : fsFind fs (p ++ [ a ]) = none := by
  cases hf : fsFind fs (p ++ [ a ]) with
  | none => rfl
  | some v =>
    have := h (p ++ [ a ]) (List.prefix_append p [ a ]) (by rw [hf]; exact fun hh => by cases hh)
    rw [List.length_append] at this
    simp only [List.length_cons, List.length_nil] at this
    omega

theorem walkChildren_congr2 {fs1 fs : FS}
    {w1 w2 : Fpath → Node → List (Fpath × Node)} {p : Fpath} :
    ∀ names : List String,
      (∀ name, name ∈ names →
        fsFind fs1 (p ++ [ name ]) = fsFind fs (p ++ [ name ])) →
      (∀ name, name ∈ names → ∀ n', fsFind fs (p ++ [ name ]) = some n' →
        w1 (p ++ [ name ]) n' = w2 (p ++ [ name ]) n') →
      walkChildren fs1 w1 p names = walkChildren fs w2 p names := by
  intro names
  induction names with
  | nil => intro _ _; rfl
  | cons name rest ih =>
    intro hfind hw
    simp only [walkChildren]
    rw [hfind name (List.mem_cons_self _ _)]
    rw [ih (fun nm hm => hfind nm (List.mem_cons_of_mem _ hm))
      (fun nm hm => hw nm (List.mem_cons_of_mem _ hm))]
    congr 1
    cases hf : fsFind fs (p ++ [ name ]) with
    | none => rfl
    | some n' => exact hw name (List.mem_cons_self _ _) n' hf

theorem walkFrom_fuel_congr {fs : FS} :
    ∀ (f1 : Nat) (p : Fpath) (n : Node) (f2 : Nat),
      okFuel fs p f1 → okFuel fs p f2 →
      walkFrom fs f1 p n = walkFrom fs f2 p n := by
  intro f1
  induction f1 with
  | zero =>
    intro p n f2 h1 _
    cases n with
    | file m c => cases f2 <;> rfl
    | dir m =>
      cases f2 with
      | zero => rfl
      | succ g =>
        simp only [walkFrom]
        rw [childNames_nil_of_none (okFuel_zero_no_child h1)]
        rfl
  | succ f ih =>
    intro p n f2 h1 h2
    cases n with
    | file m c => cases f2 <;> rfl
    | dir m =>
      cases f2 with
      | zero =>
        simp only [walkFrom]
        rw [childNames_nil_of_none (okFuel_zero_no_child h2)]
        rfl
      | succ g =>
        simp only [walkFrom]
        congr 1
        refine walkChildren_congr2 (childNames fs p) (fun _ _ => rfl) ?_
        intro name _ n' _
        exact ih (p ++ [ name ]) n' g (okFuel_child name h1) (okFuel_child name h2)

theorem walkFrom_fs_congr {fs1 fs : FS} {src : Fpath}
    (h : ∀ q, src <+: q → fsFind fs1 q = fsFind fs q) :
    ∀ (f : Nat) (p : Fpath) (n : Node), src <+: p →
      walkFrom fs1 f p n = walkFrom fs f p n := by
  intro f
  induction f with
  | zero => intro p n _; cases n <;> rfl
  | succ f ih =>
    intro p n hp
    cases n with
    | file m c => rfl
    | dir m =>
      simp only [walkFrom]
      have hcn : childNames fs1 p = childNames fs p :=
        childNames_congr (fun a => h (p ++ [ a ]) (hp.trans (List.prefix_append p [ a ])))
      rw [hcn]
      congr 1
      refine walkChildren_congr2 (childNames fs p)
        (fun name _ => h (p ++ [ name ]) (hp.trans (List.prefix_append p [ name ]))) ?_
      intro name _ n' _
      exact ih (p ++ [ name ]) n' (hp.trans (List.prefix_append p [ name ]))

/-- The walk of the subtree at `src` only depends on the stat results at
and below `src`. -/
theorem fsWalkList_congr {fs1 fs : FS} {src : Fpath}
    (h : ∀ q, src <+: q → fsFind fs1 q = fsFind fs q) :
    fsWalkList fs1 src = fsWalkList fs src := by
  have hsrc : fsFind fs1 src = fsFind fs src := h src List.prefix_rfl
  cases hfind : fsFind fs src with
  | none =>
    rw [fsWalkList, fsWalkList, hsrc, hfind]
  | some n =>
    rw [fsWalkList, fsWalkList, hsrc, hfind]
    dsimp only
    have step1 : walkFrom fs1 (fsMaxLen fs1 + 1) src n =
        walkFrom fs (fsMaxLen fs1 + 1) src n :=
      walkFrom_fs_congr h _ src n List.prefix_rfl
    have hok1 : okFuel fs src (fsMaxLen fs1 + 1) := by
      intro q hq hne
      have hne1 : fsFind fs1 q ≠ none := by rw [h q hq]; exact hne
      cases hf1 : fsFind fs1 q with
      | none => exact absurd hf1 hne1
      | some v =>
        have := fsFind_length_le_maxLen hf1
        omega
    rw [step1, walkFrom_fuel_congr _ src n _ hok1 (okFuel_max fs src)]

/-! ## Re-running a successful copy is a no-op (idempotence) -/

/-- What a successful first copy guarantees at a destination path: for a
directory, the destination directory exists; for a file, the destination
holds a file with the source's content (any mode) and its parent exists. -/
def established (fs1 : FS) (d : Fpath) : Node → Prop
  | .dir _ => fsDirAt fs1 d = true
  | .file _ c => (∃ m1, fsFind fs1 d = some (.file m1 c)) ∧
      fsDirAt fs1 d.dropLast = true

theorem srcExt_not_pref {src dst q : Fpath} (r : Fpath)
    (hsd : ¬ src <+: dst) (hds : ¬ dst <+: src) (hq : src <+: q) :
    ¬ q <+: dst ++ r := by
  intro h
  rcases prefix_split h with h1 | h1
  · exact hsd (hq.trans h1)
  · rcases List.prefix_or_prefix_of_prefix hq h1 with h2 | h2
    · exact hsd h2
    · exact hds h2

theorem mkdirAllGo_dirAt (mode : Nat) :
    ∀ (fuel : Nat) (fs : FS) (p : Fpath) (fs' : FS), fuel = p.length →
      mkdirAllGo mode fuel fs p = .ok fs' → fsDirAt fs' p = true := by
  intro fuel
  induction fuel with
  | zero =>
    intro fs p fs' hlen hok
    cases p with
    | nil => cases hok; rfl
    | cons a t => simp at hlen
  | succ f ih =>
    intro fs p fs' hlen hok
    cases p with
    | nil => cases hok; rfl
    | cons a t =>
      simp only [mkdirAllGo] at hok
      cases hfind : fsFind fs (a :: t) with
      | some n =>
        cases n with
        | dir m =>
          rw [hfind] at hok
          cases hok
          simp [fsDirAt, hfind]
        | file m c => rw [hfind] at hok; cases hok
      | none =>
        rw [hfind] at hok
        cases hrec : mkdirAllGo mode f fs (a :: t).dropLast with
        | error e => rw [hrec] at hok; cases hok
        | ok fsmid =>
          rw [hrec] at hok
          cases hok
          simp [fsDirAt, fsFind_fsSet_self]

theorem mkdirAll_dirAt {fs : FS} {p : Fpath} {mode : Nat} {fs' : FS}
    (hok : mkdirAll fs p mode = .ok fs') : fsDirAt fs' p = true :=
  mkdirAllGo_dirAt mode p.length fs p fs' rfl hok

/-- A successful walk step only replaces the entry at its own destination
path; every other existing entry keeps its value. -/
theorem walkStep_mono_except {fs : FS} {src dst p : Fpath} {n : Node}
    {fsb : FS} (h : walkStep fs src dst p n = (fsb, none))
    {q : Fpath} {v : Node} (hq : q ≠ dst ++ p.drop src.length)
    (hv : fsFind fs q = some v) : fsFind fsb q = some v := by
  cases n with
  | dir m =>
    simp only [walkStep] at h
    cases hmk : mkdirAll fs (dst ++ p.drop src.length) m with
    | error e => rw [hmk] at h; cases h
    | ok fs1 =>
      rw [hmk] at h
      cases h
      exact mkdirAll_mono_some hmk hv
  | file m c =>
    simp only [walkStep] at h
    cases hmk : mkdirAll fs (dst ++ p.drop src.length).dropLast 0o755 with
    | error e => rw [hmk] at h; cases h
    | ok fs1 =>
      rw [hmk] at h
      dsimp only at h
      cases hcp : copyFile fs1 p (dst ++ p.drop src.length) m with
      | error e => rw [hcp] at h; cases h
      | ok fs2 =>
        rw [hcp] at h
        cases h
        rw [copyFile_frame hcp hq]
        exact mkdirAll_mono_some hmk hv

/-- A successful walk step leaves the source region untouched, provided
source and destination roots are unrelated. -/
theorem walkStep_src_pres {src dst : Fpath}
    (hsd : ¬ src <+: dst) (hds : ¬ dst <+: src)
    {fs : FS} {p : Fpath} {n : Node} {fsb : FS} {e? : Option Err}
    (h : walkStep fs src dst p n = (fsb, e?))
    {q : Fpath} (hq : src <+: q) : fsFind fsb q = fsFind fs q :=
  walkStep_frame h (srcExt_not_pref _ hsd hds hq)

/-- Structural facts about every member of a well-formed walk suffix. -/
theorem walkOKAux_mem {fs0 : FS} {src : Fpath} :
    ∀ {items : List (Fpath × Node)} {seenDirs seenAll : List Fpath},
      walkOKAux fs0 src seenDirs seenAll items = true →
      ∀ pr, pr ∈ items →
        src <+: pr.1 ∧ pr.1 ∉ seenAll ∧ fsFind fs0 pr.1 = some pr.2 := by
  intro items
  induction items with
  | nil =>
    intro seenDirs seenAll _ pr hpr
    cases hpr
  | cons it rest ih =>
    intro seenDirs seenAll hOK pr hpr
    obtain ⟨p, n⟩ := it
    simp only [walkOKAux, Bool.and_eq_true, Bool.or_eq_true,
      decide_eq_true_eq, Bool.not_eq_true', decide_eq_false_iff_not,
      List.isPrefixOf_iff_prefix] at hOK
    obtain ⟨hpre, hnot, _, hfind0, hrest⟩ := hOK
    rcases List.mem_cons.mp hpr with h | h
    · subst h
      exact ⟨hpre, hnot, hfind0⟩
    · obtain ⟨h1, h2, h3⟩ := ih hrest pr h
      exact ⟨h1, fun hx => h2 (List.mem_cons_of_mem _ hx), h3⟩

/-- A successful first copy establishes, for every walked entry, the
destination facts that make a second identical walk a no-op, while
preserving all entries outside the visited destination paths and the whole
source region. -/
theorem copyItems_establish (fs0 : FS) (src dst : Fpath)
    (hsd : ¬ src <+: dst) (hds : ¬ dst <+: src) :
    ∀ (items : List (Fpath × Node)) (seenDirs seenAll : List Fpath) (fs fs1 : FS),
      walkOKAux fs0 src seenDirs seenAll items = true →
      copyItems fs src dst items = (fs1, none) →
      (∀ p, p ∈ seenDirs → p ∈ seenAll) →
      (∀ p, p ∈ seenAll → src <+: p) →
      (∀ q, src <+: q → fsFind fs q = fsFind fs0 q) →
      (∀ pr, pr ∈ items → established fs1 (dst ++ pr.1.drop src.length) pr.2) ∧
      (∀ q v, fsFind fs q = some v →
        (∀ pr, pr ∈ items → q ≠ dst ++ pr.1.drop src.length) →
        fsFind fs1 q = some v) ∧
      (∀ q, src <+: q → fsFind fs1 q = fsFind fs q) := by
  have hdstne : dst ≠ [] := fun h => hds (h ▸ List.nil_prefix)
  have hsrcne : src ≠ [] := fun h => hsd (h ▸ List.nil_prefix)
  intro items
  induction items with
  | nil =>
    intro seenDirs seenAll fs fs1 _ hcopy _ _ _
    cases hcopy
    exact ⟨by simp, fun q v hv _ => hv, fun q _ => rfl⟩
  | cons it rest ih =>
    rintro seenDirs seenAll fs fs1 hOK hcopy hsub hseenA hsrc
    obtain ⟨p, n⟩ := it
    simp only [walkOKAux, Bool.and_eq_true, Bool.or_eq_true,
      decide_eq_true_eq, Bool.not_eq_true', decide_eq_false_iff_not,
      List.isPrefixOf_iff_prefix] at hOK
    obtain ⟨hpre, hnot, hpar, hfind0, hrest⟩ := hOK
    obtain ⟨rel, rfl⟩ := hpre
    cases n with
    | dir m =>
      simp only [copyItems, walkStep, List.drop_left] at hcopy
      cases hmk : mkdirAll fs (dst ++ rel) m with
      | error e => rw [hmk] at hcopy; exact absurd hcopy (by simp)
      | ok fsb =>
        rw [hmk] at hcopy
        dsimp only at hcopy
        have hdirAtb : fsDirAt fsb (dst ++ rel) = true := mkdirAll_dirAt hmk
        have hsrcb : ∀ q, src <+: q → fsFind fsb q = fsFind fs q :=
          fun q hq => mkdirAll_frame hmk (srcExt_not_pref rel hsd hds hq)
        obtain ⟨ihest, ihmono, ihsrc⟩ :=
          ih ((src ++ rel) :: seenDirs) ((src ++ rel) :: seenAll) fsb fs1
            hrest hcopy
            (by
              intro x hx
              rcases List.mem_cons.mp hx with h | h
              · exact h ▸ List.mem_cons_self _ _
              · exact List.mem_cons_of_mem _ (hsub x h))
            (by
              intro x hx
              rcases List.mem_cons.mp hx with h | h
              · exact h ▸ List.prefix_append src rel
              · exact hseenA x h)
            (fun q hq => (hsrcb q hq).trans (hsrc q hq))
        have hguard_d : ∀ pr', pr' ∈ rest →
            dst ++ rel ≠ dst ++ pr'.1.drop src.length := by
          intro pr' hpr' heq
          obtain ⟨hpre', hnot', _⟩ := walkOKAux_mem hrest pr' hpr'
          obtain ⟨rel', hrel'⟩ := hpre'
          rw [← hrel', List.drop_left] at heq
          have hre : rel = rel' := List.append_cancel_left heq
          exact hnot' (by rw [← hrel', ← hre]; exact List.mem_cons_self _ _)
        refine ⟨?_, ?_, fun q hq => (ihsrc q hq).trans (hsrcb q hq)⟩
        · intro pr hpr
          rcases List.mem_cons.mp hpr with h | h
          · subst h
            show established fs1 (dst ++ (src ++ rel).drop src.length) (.dir m)
            rw [List.drop_left]
            show fsDirAt fs1 (dst ++ rel) = true
            rcases (fsDirAt_iff fsb _).mp hdirAtb with hnil | ⟨m', hm'⟩
            · rw [hnil]
              rfl
            · exact (fsDirAt_iff fs1 _).mpr
                (Or.inr ⟨m', ihmono _ _ hm' hguard_d⟩)
          · exact ihest pr h
        · intro q v hv hguard
          exact ihmono q v (mkdirAll_mono_some hmk hv)
            (fun pr hpr => hguard pr (List.mem_cons_of_mem _ hpr))
    | file m c =>
      simp only [copyItems, walkStep, List.drop_left] at hcopy
      cases hmk : mkdirAll fs (dst ++ rel).dropLast 0o755 with
      | error e => rw [hmk] at hcopy; exact absurd hcopy (by simp)
      | ok fsmid =>
        rw [hmk] at hcopy
        dsimp only at hcopy
        have hsrcfs : fsFind fs (src ++ rel) = some (.file m c) := by
          rw [hsrc _ (List.prefix_append src rel)]
          exact hfind0
        have hsrcmid : fsFind fsmid (src ++ rel) = some (.file m c) := by
          rw [mkdirAll_frame hmk (fun hh =>
            srcExt_not_pref rel hsd hds (List.prefix_append src rel)
              (prefix_of_prefix_dropLast hh))]
          exact hsrcfs
        cases hcp : copyFile fsmid (src ++ rel) (dst ++ rel) m with
        | error e => rw [hcp] at hcopy; exact absurd hcopy (by simp)
        | ok fsb =>
          rw [hcp] at hcopy
          dsimp only at hcopy
          have hcp0 := hcp
          simp only [copyFile, hsrcmid] at hcp
          have hestb : (∃ m1, fsFind fsb (dst ++ rel) = some (.file m1 c)) ∧
              (∀ q v, q ≠ dst ++ rel → fsFind fsmid q = some v →
                fsFind fsb q = some v) := by
            cases hdest : fsFind fsmid (dst ++ rel) with
            | some nd =>
              cases nd with
              | file m1 c1 =>
                rw [hdest] at hcp
                cases hcp
                refine ⟨⟨m1, fsFind_fsSet_self _ _ _⟩, ?_⟩
                intro q v hq hv
                rw [fsFind_fsSet_ne _ _ _ q hq]
                exact hv
              | dir m1 => rw [hdest] at hcp; cases hcp
            | none =>
              rw [hdest] at hcp
              by_cases hpar2 : fsDirAt fsmid (dst ++ rel).dropLast = true
              · rw [if_pos hpar2] at hcp
                cases hcp
                refine ⟨⟨m, fsFind_fsSet_self _ _ _⟩, ?_⟩
                intro q v hq hv
                rw [fsFind_fsSet_ne _ _ _ q hq]
                exact hv
              · rw [if_neg hpar2] at hcp
                cases hcp
          have hpdirb : fsDirAt fsb (dst ++ rel).dropLast = true := by
            have hmid : fsDirAt fsmid (dst ++ rel).dropLast = true :=
              mkdirAll_dirAt hmk
            rcases (fsDirAt_iff fsmid _).mp hmid with hnil | ⟨m2, hm2⟩
            · rw [hnil]
              rfl
            · refine (fsDirAt_iff fsb _).mpr (Or.inr ⟨m2, ?_⟩)
              refine hestb.2 _ _ ?_ hm2
              intro hh
              have hlen := congrArg List.length hh
              rw [List.length_dropLast] at hlen
              have hne : dst ++ rel ≠ [] :=
                List.append_ne_nil_of_left_ne_nil hdstne rel
              have := List.length_pos.mpr hne
              omega
          have hstepmono : ∀ q v, q ≠ dst ++ rel → fsFind fs q = some v →
              fsFind fsb q = some v :=
            fun q v hq hv => hestb.2 q v hq (mkdirAll_mono_some hmk hv)
          have hsrcb : ∀ q, src <+: q → fsFind fsb q = fsFind fs q := by
            intro q hq
            rw [copyFile_frame hcp0 (fun hh =>
              srcExt_not_pref rel hsd hds hq (hh ▸ List.prefix_rfl))]
            exact mkdirAll_frame hmk (fun hh =>
              srcExt_not_pref rel hsd hds hq (prefix_of_prefix_dropLast hh))
          obtain ⟨ihest, ihmono, ihsrc⟩ :=
            ih seenDirs ((src ++ rel) :: seenAll) fsb fs1 hrest hcopy
              (fun x hx => List.mem_cons_of_mem _ (hsub x hx))
              (by
                intro x hx
                rcases List.mem_cons.mp hx with h | h
                · exact h ▸ List.prefix_append src rel
                · exact hseenA x h)
              (fun q hq => (hsrcb q hq).trans (hsrc q hq))
          have hguard_d : ∀ pr', pr' ∈ rest →
              dst ++ rel ≠ dst ++ pr'.1.drop src.length := by
            intro pr' hpr' heq
            obtain ⟨hpre', hnot', _⟩ := walkOKAux_mem hrest pr' hpr'
            obtain ⟨rel', hrel'⟩ := hpre'
            rw [← hrel', List.drop_left] at heq
            have hre : rel = rel' := List.append_cancel_left heq
            exact hnot' (by rw [← hrel', ← hre]; exact List.mem_cons_self _ _)
          have hguard_p : ∀ pr', pr' ∈ rest →
              (dst ++ rel).dropLast ≠ dst ++ pr'.1.drop src.length := by
            intro pr' hpr' heq
            obtain ⟨hpre', hnot', _⟩ := walkOKAux_mem hrest pr' hpr'
            obtain ⟨rel', hrel'⟩ := hpre'
            rw [← hrel', List.drop_left] at heq
            rcases hpar with ⟨_, hroot⟩ | hparent
            · have hrel : rel = [] := by
                have : src ++ rel = src ++ [] := by simpa using hroot
                exact List.append_cancel_left this
              subst hrel
              have hlen := congrArg List.length heq
              rw [List.length_dropLast] at hlen
              simp only [List.length_append, List.length_nil] at hlen
              have := List.length_pos.mpr hdstne
              omega
            · have hrelne : rel ≠ [] := by
                intro hh
                subst hh
                rw [List.append_nil] at hparent
                have hpp := hseenA _ (hsub _ hparent)
                have := hpp.length_le
                rw [List.length_dropLast] at this
                have h2 : 0 < src.length := List.length_pos.mpr hsrcne
                omega
              rw [List.dropLast_append_of_ne_nil dst hrelne] at heq
              have hre : rel.dropLast = rel' := List.append_cancel_left heq
              have hmemD : (src ++ rel).dropLast ∈ seenDirs := hparent
              have : pr'.1 ∈ seenAll := by
                rw [← hrel', ← hre, ← List.dropLast_append_of_ne_nil src hrelne]
                exact hsub _ hmemD
              exact hnot' (List.mem_cons_of_mem _ this)
          refine ⟨?_, ?_, fun q hq => (ihsrc q hq).trans (hsrcb q hq)⟩
          · intro pr hpr
            rcases List.mem_cons.mp hpr with h | h
            · subst h
              show established fs1 (dst ++ (src ++ rel).drop src.length) (.file m c)
              rw [List.drop_left]
              constructor
              · obtain ⟨m1, hm1⟩ := hestb.1
                exact ⟨m1, ihmono _ _ hm1 hguard_d⟩
              · rcases (fsDirAt_iff fsb _).mp hpdirb with hnil | ⟨m2, hm2⟩
                · rw [hnil]
                  rfl
                · exact (fsDirAt_iff fs1 _).mpr
                    (Or.inr ⟨m2, ihmono _ _ hm2 hguard_p⟩)
            · exact ihest pr h
          · intro q v hv hguard
            have hqd : q ≠ dst ++ rel := by
              have := hguard (src ++ rel, .file m c) (List.mem_cons_self _ _)
              rw [List.drop_left] at this
              exact this
            exact ihmono q v (hstepmono q v hqd hv)
              (fun pr hpr => hguard pr (List.mem_cons_of_mem _ hpr))

/-- Re-running the walk over already-established destinations changes
nothing: every step returns the filesystem unchanged. -/
theorem copyItems_noop (fs0 fs1 : FS) (src dst : Fpath) :
    ∀ (items : List (Fpath × Node)) (seenDirs seenAll : List Fpath),
      walkOKAux fs0 src seenDirs seenAll items = true →
      (∀ pr, pr ∈ items → established fs1 (dst ++ pr.1.drop src.length) pr.2) →
      (∀ q, src <+: q → fsFind fs1 q = fsFind fs0 q) →
      copyItems fs1 src dst items = (fs1, none) := by
  intro items
  induction items with
  | nil => intro _ _ _ _ _; rfl
  | cons it rest ih =>
    intro seenDirs seenAll hOK hest hsrc
    obtain ⟨p, n⟩ := it
    simp only [walkOKAux, Bool.and_eq_true, Bool.or_eq_true,
      decide_eq_true_eq, Bool.not_eq_true', decide_eq_false_iff_not,
      List.isPrefixOf_iff_prefix] at hOK
    obtain ⟨hpre, _, _, hfind0, hrest⟩ := hOK
    obtain ⟨rel, rfl⟩ := hpre
    have hd := hest _ (List.mem_cons_self _ _)
    rw [List.drop_left] at hd
    cases n with
    | dir m =>
      have hd' : fsDirAt fs1 (dst ++ rel) = true := hd
      have hstep : walkStep fs1 src dst (src ++ rel) (.dir m) = (fs1, none) := by
        simp only [walkStep, List.drop_left, mkdirAll_of_dirAt m hd']
      simp only [copyItems, hstep]
      exact ih _ _ hrest (fun pr hpr => hest pr (List.mem_cons_of_mem _ hpr)) hsrc
    | file m c =>
      obtain ⟨⟨m1, hfound⟩, hpdir⟩ :
          (∃ m1, fsFind fs1 (dst ++ rel) = some (.file m1 c)) ∧
            fsDirAt fs1 (dst ++ rel).dropLast = true := hd
      have hsrc1 : fsFind fs1 (src ++ rel) = some (.file m c) := by
        rw [hsrc _ (List.prefix_append src rel)]
        exact hfind0
      have hmk : mkdirAll fs1 (dst ++ rel).dropLast 0o755 = .ok fs1 :=
        mkdirAll_of_dirAt _ hpdir
      have hcp : copyFile fs1 (src ++ rel) (dst ++ rel) m = .ok fs1 := by
        simp only [copyFile, hsrc1, hfound]
        rw [fsSet_self_of_find fs1 _ _ hfound]
      have hstep : walkStep fs1 src dst (src ++ rel) (.file m c) = (fs1, none) := by
        simp only [walkStep, List.drop_left, hmk, hcp]
      simp only [copyItems, hstep]
      exact ih _ _ hrest (fun pr hpr => hest pr (List.mem_cons_of_mem _ hpr)) hsrc

/-! ## Claim C8: idempotence of copyDirectory -/

/-- C8: `copyDirectory` is idempotent on success.  A successful copy of a
well-formed source tree (source and destination roots unrelated) leaves a
destination that a second, identical run reproduces exactly: the second
run succeeds and returns the very same filesystem, so the destination tree
after re-running equals — in content and permission bits — the tree the
first copy produced. -/
theorem c8_copy_idempotent (fs fs1 : FS) (src dst : Fpath) (n : Node)
    (hsrc : fsFind fs src = some n)
    (hwalk : walkOK fs src (fsWalkList fs src) = true)
    (hsd : ¬ src <+: dst) (hds : ¬ dst <+: src)
    (hrun1 : copyDirectory fs src dst = (fs1, none)) :
    copyDirectory fs1 src dst = (fs1, none) := by
  have hitems1 : copyItems fs src dst (fsWalkList fs src) = (fs1, none) := by
    simp only [copyDirectory, hsrc] at hrun1
    exact hrun1
  obtain ⟨hest, _, hsrcpres⟩ :=
    copyItems_establish fs src dst hsd hds (fsWalkList fs src) [] [] fs fs1
      hwalk hitems1 (by simp) (by simp) (fun q _ => rfl)
  have hwl : fsWalkList fs1 src = fsWalkList fs src := fsWalkList_congr hsrcpres
  have hfind1 : fsFind fs1 src = some n := by
    rw [hsrcpres src List.prefix_rfl]
    exact hsrc
  have hnoop : copyItems fs1 src dst (fsWalkList fs src) = (fs1, none) :=
    copyItems_noop fs fs1 src dst (fsWalkList fs src) [] [] hwalk hest hsrcpres
  simp only [copyDirectory, hfind1, hwl]
  exact hnoop

/-- C8 witness: re-running the copy of `c5srcFs` into `d` returns the
first run's result unchanged. -/
theorem c8_witness :
    copyDirectory (copyDirectory c5srcFs [ "s" ] [ "d" ]).1 [ "s" ] [ "d" ] =
      ((copyDirectory c5srcFs [ "s" ] [ "d" ]).1, none) :=
  c8_copy_idempotent c5srcFs _ [ "s" ] [ "d" ] (.dir 0o750) (by decide)
    (by decide) (by decide) (by decide) (by decide)
